import Mathlib

/-!
# CSV parser (`src/csv_parser.cpp`): embedding and properties

Strings (`std::string`) are lists of characters, a row is a list of fields,
and a record (`std::map<std::string, std::string>`) is a key-sorted
association list without duplicate keys.  The parser object is a structure
holding the three configuration members and the mutable member `headers_`;
every member function takes the object and returns the updated object
together with its result.  Loops over a string run over the characters that
remain; `parseLineAt` and the other `...Checked` definitions are the same
loops on indices, where a read outside a string or vector is a failure, and
are shown to agree with the former.
-/

namespace CSV

/-- Text, as `std::string`: a sequence of characters. -/
abbrev Str := List Char

/-- One tokenized line, as `std::vector<std::string>`. -/
abbrev Row := List Str

/-- A record, as `std::map<std::string, std::string>`: entries kept in
strictly increasing key order. -/
abbrev Record := List (Str × Str)

/-- The object `CSVParser` with its four data members (`csv_parser.h`). -/
structure CSVParser where
  delimiter_ : Char
  hasHeader_ : Bool
  skipEmptyLines_ : Bool
  headers_ : Row
  deriving DecidableEq, Repr

/-- The constructor `CSVParser::CSVParser`: the three configuration members
are taken from the arguments, `headers_` is default-initialised (empty). -/
def CSVParser.new (delimiter : Char) (hasHeader skipEmptyLines : Bool) : CSVParser :=
  { delimiter_ := delimiter, hasHeader_ := hasHeader,
    skipEmptyLines_ := skipEmptyLines, headers_ := [] }

/-- Membership in the local constant `whitespace = " \t\r\n"` of `trim`. -/
def isWhitespace (c : Char) : Bool :=
  c == ' ' || c == '\t' || c == '\r' || c == '\n'

/-- The call `str.find_first_not_of(whitespace)`: index of the first
character that is not in `whitespace`, `none` standing for `npos`. -/
def findFirstNotOf : Str → Option Nat
  | [] => none
  | c :: cs => if isWhitespace c then (findFirstNotOf cs).map (· + 1) else some 0

/-- The call `str.find_last_not_of(whitespace)`: index of the last character
that is not in `whitespace`, `none` standing for `npos`. -/
def findLastNotOf : Str → Option Nat
  | [] => none
  | c :: cs =>
    match findLastNotOf cs with
    | some i => some (i + 1)
    | none => if isWhitespace c then none else some 0

/-- The call `str.substr(pos, n)` for `pos` within the string: at most `n`
characters starting at index `pos`. -/
def substr (str : Str) (pos n : Nat) : Str :=
  (str.drop pos).take n

/-- The member function `CSVParser::trim`.  In the branch where `start` was
found and `end` is `npos` the unsigned count `end - start + 1` wraps around to
a value no smaller than the remaining length, so `substr` returns the rest of
the string. -/
def trim (str : Str) : Str :=
  match findFirstNotOf str with
  | none => []
  | some start =>
    match findLastNotOf str with
    | some stop => substr str start (stop - start + 1)
    | none => str.drop start

/-- The `for` loop of `CSVParser::parseLine` over the characters that are
still to be read, with the loop-carried locals `field`, `fields`, `inQuotes`
and `escapeNext`; the final `fields.push_back(trim(field))` is the exit of the
loop.  The look-ahead `line[i + 1]` is the head of the remaining characters,
and `++i` in the doubled-quote branch drops it. -/
def parseLineLoop (delimiter : Char) :
    Str → Str → Row → Bool → Bool → Row
  | [], field, fields, _, _ => fields ++ [trim field]
  | c :: rest, field, fields, inQuotes, escapeNext =>
    if escapeNext then
      parseLineLoop delimiter rest (field ++ [c]) fields inQuotes false
    else if c = '\\' then
      parseLineLoop delimiter rest field fields inQuotes true
    else if c = '"' then
      match rest with
      | [] => parseLineLoop delimiter [] field fields (!inQuotes) escapeNext
      | c' :: rest' =>
        if inQuotes && c' == '"' then
          parseLineLoop delimiter rest' (field ++ ['"']) fields inQuotes escapeNext
        else
          parseLineLoop delimiter (c' :: rest') field fields (!inQuotes) escapeNext
    else if c == delimiter && !inQuotes then
      parseLineLoop delimiter rest [] (fields ++ [trim field]) inQuotes escapeNext
    else
      parseLineLoop delimiter rest (field ++ [c]) fields inQuotes escapeNext

/-- The member function `CSVParser::parseLine`. -/
def parseLine (delimiter : Char) (line : Str) : Row :=
  parseLineLoop delimiter line [] [] false false

/-- One call `std::getline(stream, line)` on the unread part of the stream:
it fails (`none`) when nothing is left, and otherwise yields the characters
up to the next `'\n'` and the unread part after that `'\n'`. -/
def getline (stream : Str) : Option (Str × Str) :=
  match stream with
  | [] => none
  | _ :: _ => some (stream.takeWhile (· != '\n'), (stream.dropWhile (· != '\n')).tail)

/-- The lines that the successive successful calls of `std::getline` in
`while (std::getline(stream, line))` deliver. -/
def getLines : Str → List Str
  | [] => []
  | c :: cs =>
    if c = '\n' then [] :: getLines cs
    else
      match getLines cs with
      | [] => [[c]]
      | l :: ls => (c :: l) :: ls

/-- The body of the `while` loop of `CSVParser::parse`, run over the lines
that remain, with the local `firstLine`, the local `result` and the object
(whose `headers_` the body assigns). -/
def parseLoop : List Str → CSVParser → Bool → List Row → List Row × CSVParser
  | [], p, _, result => (result, p)
  | line :: rest, p, firstLine, result =>
    if p.skipEmptyLines_ && line.isEmpty then
      parseLoop rest p firstLine result
    else
      let row := parseLine p.delimiter_ (trim line)
      if firstLine && p.hasHeader_ then
        parseLoop rest { p with headers_ := row } false result
      else
        parseLoop rest p false (result ++ [row])

/-- The member function `CSVParser::parse`: the returned rows and the object
after the call. -/
def CSVParser.parse (p : CSVParser) (csvData : Str) : List Row × CSVParser :=
  parseLoop (getLines csvData) p true []

/-- The member function `CSVParser::getHeaders`. -/
def CSVParser.getHeaders (p : CSVParser) : Row :=
  p.headers_

/-- The assignment `obj[key] = value` on a `std::map`: the value of an
existing key is replaced, a new key is entered at its place in key order. -/
def Record.assign : Record → Str → Str → Record
  | [], key, value => [(key, value)]
  | (k, v) :: m, key, value =>
    if key = k then (k, value) :: m
    else if key < k then (key, value) :: (k, v) :: m
    else (k, v) :: Record.assign m key value

/-- Look-up of a key in a record (`find`), `none` when the key is absent. -/
def Record.find : Record → Str → Option Str
  | [], _ => none
  | (k, v) :: m, key => if key = k then some v else Record.find m key

/-- The inner loop `for (i = 0; i < std::min(headers_.size(), row.size()); ++i)`
of `CSVParser::parseToObjects`, with `k` iterations left from index `i`; the
guard of the loop is what makes `headers_[i]` and `row[i]` defined. -/
def objLoop (headers row : Row) :
    (k i : Nat) → i + k ≤ min headers.length row.length → Record → Record
  | 0, _, _, obj => obj
  | k + 1, i, h, obj =>
    objLoop headers row k (i + 1) (by omega)
      (Record.assign obj (headers.get ⟨i, by omega⟩) (row.get ⟨i, by omega⟩))

/-- The body of the outer loop of `CSVParser::parseToObjects`: the record
built for one row. -/
def buildObj (headers row : Row) : Record :=
  objLoop headers row (min headers.length row.length) 0 (by omega) []

/-- The member function `CSVParser::parseToObjects`: the returned records and
the object after the call. -/
def CSVParser.parseToObjects (p : CSVParser) (csvData : Str) : List Record × CSVParser :=
  if !p.hasHeader_ then ([], p)
  else
    let r := p.parse csvData
    (r.1.map (buildObj r.2.headers_), r.2)

/-- The rows that the loop of `parse` tokenizes: every line that the
`skipEmptyLines_` test does not discard, trimmed and tokenized, in order. -/
def keptRows (delimiter : Char) (skipEmptyLines : Bool) (lines : List Str) : List Row :=
  (lines.filter (fun l => !(skipEmptyLines && l.isEmpty))).map
    (fun l => parseLine delimiter (trim l))

/-- A call made on a parser object through its public interface. -/
inductive Call where
  | parse (text : Str)
  | parseToObjects (text : Str)

/-- The object after one call. -/
def CSVParser.call (p : CSVParser) : Call → CSVParser
  | Call.parse text => (p.parse text).2
  | Call.parseToObjects text => (p.parseToObjects text).2

/-- The object after a sequence of calls, made in order. -/
def CSVParser.run (p : CSVParser) (calls : List Call) : CSVParser :=
  calls.foldl CSVParser.call p

/-- The record of the spec for a row: the map built by inserting
`headers[i] -> row[i]` for `i = 0 .. min(len(headers), len(row)) - 1`, in that
order, into the empty map. -/
def insertPairs (headers row : Row) : Record :=
  (List.range (min headers.length row.length)).foldl
    (fun m i => Record.assign m (headers.getD i []) (row.getD i [])) []

/-- The keys of a record. -/
def Record.keys (m : Record) : List Str :=
  m.map Prod.fst

/-- Successive assignments of a list of key/value pairs to a record. -/
def Record.assignAll (m : Record) (ps : List (Str × Str)) : Record :=
  ps.foldl (fun m kv => Record.assign m kv.1 kv.2) m

/-- A field wrapped in double quotes. -/
def quoted (f : Str) : Str :=
  '"' :: (f ++ ['"'])

/-- The line made of the fields, each wrapped in double quotes, joined with
the delimiter. -/
def quotedLine (d : Char) (fs : List Str) : Str :=
  [d].intercalate (fs.map quoted)

/-- The string with every double quote replaced by two double quotes. -/
def doubleQuotes : Str → Str
  | [] => []
  | c :: cs => if c = '"' then '"' :: '"' :: doubleQuotes cs else c :: doubleQuotes cs

/-- The string with a backslash put before every character. -/
def escapeAll : Str → Str
  | [] => []
  | c :: cs => '\\' :: c :: escapeAll cs

/-- The loop of `CSVParser::parseLine` once more, returning the values that
the locals `field`, `fields`, `inQuotes` and `escapeNext` hold when the loop
exits (before the final `fields.push_back(trim(field))`). -/
def parseLineExit (delimiter : Char) :
    Str → Str → Row → Bool → Bool → Str × Row × Bool × Bool
  | [], field, fields, inQuotes, escapeNext => (field, fields, inQuotes, escapeNext)
  | c :: rest, field, fields, inQuotes, escapeNext =>
    if escapeNext then
      parseLineExit delimiter rest (field ++ [c]) fields inQuotes false
    else if c = '\\' then
      parseLineExit delimiter rest field fields inQuotes true
    else if c = '"' then
      match rest with
      | [] => parseLineExit delimiter [] field fields (!inQuotes) escapeNext
      | c' :: rest' =>
        if inQuotes && c' == '"' then
          parseLineExit delimiter rest' (field ++ ['"']) fields inQuotes escapeNext
        else
          parseLineExit delimiter (c' :: rest') field fields (!inQuotes) escapeNext
    else if c == delimiter && !inQuotes then
      parseLineExit delimiter rest [] (fields ++ [trim field]) inQuotes escapeNext
    else
      parseLineExit delimiter rest (field ++ [c]) fields inQuotes escapeNext

/-- Whether the scan of a line ends inside quotes. -/
def endsInQuotes (delimiter : Char) (line : Str) : Bool :=
  (parseLineExit delimiter line [] [] false false).2.2.1

/-- Whether the scan of a line ends with an escape marker pending. -/
def endsWithEscape (delimiter : Char) (line : Str) : Bool :=
  (parseLineExit delimiter line [] [] false false).2.2.2

/-- The text obtained by deleting every zero-length line of a text: the lines
that are left, joined with newline. -/
def dropEmptyLines (text : Str) : Str :=
  ['\n'].intercalate ((getLines text).filter (fun l => !l.isEmpty))

/-- The text with every `\n` replaced by `\r\n`. -/
def toCRLF : Str → Str
  | [] => []
  | c :: cs => if c = '\n' then '\r' :: '\n' :: toCRLF cs else c :: toCRLF cs

/-- The loop of `CSVParser::parseLine` with its index `i` into `line`, run
for at most `fuel` iterations.  Every read `line[k]` is checked: a read outside
the string fails (`none`), and so does running out of iterations before the
loop condition `i < line.length()` turns false.  The look-ahead `line[i + 1]`
is read only after `inQuotes && i + 1 < line.length()` held, as in the source,
and the doubled-quote branch advances `i` twice. -/
def parseLineAt (delimiter : Char) (line : Str) :
    Nat → Nat → Str → Row → Bool → Bool → Option Row
  | 0, i, field, fields, _, _ =>
    if i < line.length then none else some (fields ++ [trim field])
  | fuel + 1, i, field, fields, inQuotes, escapeNext =>
    if i < line.length then
      match line.get? i with
      | none => none
      | some c =>
        if escapeNext then
          parseLineAt delimiter line fuel (i + 1) (field ++ [c]) fields inQuotes false
        else if c = '\\' then
          parseLineAt delimiter line fuel (i + 1) field fields inQuotes true
        else if c = '"' then
          if inQuotes && decide (i + 1 < line.length) then
            match line.get? (i + 1) with
            | none => none
            | some c' =>
              if c' == '"' then
                parseLineAt delimiter line fuel (i + 2) (field ++ ['"']) fields inQuotes
                  escapeNext
              else
                parseLineAt delimiter line fuel (i + 1) field fields (!inQuotes) escapeNext
          else
            parseLineAt delimiter line fuel (i + 1) field fields (!inQuotes) escapeNext
        else if c == delimiter && !inQuotes then
          parseLineAt delimiter line fuel (i + 1) [] (fields ++ [trim field]) inQuotes
            escapeNext
        else
          parseLineAt delimiter line fuel (i + 1) (field ++ [c]) fields inQuotes escapeNext
    else some (fields ++ [trim field])

/-- The member function `CSVParser::parseLine` on indices, with one iteration
allowed per character of the line. -/
def parseLineChecked (delimiter : Char) (line : Str) : Option Row :=
  parseLineAt delimiter line line.length 0 [] [] false false

/-- The inner loop of `CSVParser::parseToObjects` with checked reads of
`headers_[i]` and `row[i]`, `k` iterations being left from index `i`: a read
outside either vector fails (`none`). -/
def objLoopChecked (headers row : Row) : Nat → Nat → Record → Option Record
  | 0, _, obj => some obj
  | k + 1, i, obj =>
    match headers[i]?, row[i]? with
    | some key, some value =>
      objLoopChecked headers row k (i + 1) (Record.assign obj key value)
    | _, _ => none

/-- The record built for one row, with checked reads. -/
def buildObjChecked (headers row : Row) : Option Record :=
  objLoopChecked headers row (min headers.length row.length) 0 []

/-- The loop of `CSVParser::parse` over the tokenizer with checked reads. -/
def parseLoopChecked :
    List Str → CSVParser → Bool → List Row → Option (List Row × CSVParser)
  | [], p, _, result => some (result, p)
  | line :: rest, p, firstLine, result =>
    if p.skipEmptyLines_ && line.isEmpty then
      parseLoopChecked rest p firstLine result
    else
      match parseLineChecked p.delimiter_ (trim line) with
      | none => none
      | some row =>
        if firstLine && p.hasHeader_ then
          parseLoopChecked rest { p with headers_ := row } false result
        else
          parseLoopChecked rest p false (result ++ [row])

/-- The member function `CSVParser::parse` with checked reads. -/
def CSVParser.parseChecked (p : CSVParser) (csvData : Str) : Option (List Row × CSVParser) :=
  parseLoopChecked (getLines csvData) p true []

/-- The outer loop of `CSVParser::parseToObjects` with checked reads. -/
def recordsChecked (headers : Row) : List Row → Option (List Record)
  | [] => some []
  | row :: rows =>
    match buildObjChecked headers row, recordsChecked headers rows with
    | some obj, some objs => some (obj :: objs)
    | _, _ => none

/-- The member function `CSVParser::parseToObjects` with checked reads. -/
def CSVParser.parseToObjectsChecked (p : CSVParser) (csvData : Str) :
    Option (List Record × CSVParser) :=
  if !p.hasHeader_ then some ([], p)
  else
    match p.parseChecked csvData with
    | none => none
    | some r =>
      match recordsChecked r.2.headers_ r.1 with
      | none => none
      | some objs => some (objs, r.2)

/-- A string is trimmed: it is empty, or its first and its last character are
both outside `whitespace = " \t\r\n"`. -/
def isTrimmed (s : Str) : Bool :=
  match s.head?, s.getLast? with
  | some a, some b => !isWhitespace a && !isWhitespace b
  | _, _ => true

/-! ## The function `trim` -/

theorem findFirstNotOf_eq_none_iff (s : Str) :
    findFirstNotOf s = none ↔ ∀ c ∈ s, isWhitespace c = true := by
  induction s with
  | nil => simp [findFirstNotOf]
  | cons c cs ih =>
    by_cases hc : isWhitespace c = true
    · simp [findFirstNotOf, hc, ih]
    · simp [findFirstNotOf, hc]

theorem findLastNotOf_eq_none_iff (s : Str) :
    findLastNotOf s = none ↔ ∀ c ∈ s, isWhitespace c = true := by
  induction s with
  | nil => simp [findLastNotOf]
  | cons c cs ih =>
    cases hl : findLastNotOf cs with
    | some j =>
      have hne : ¬ ∀ c ∈ cs, isWhitespace c = true := fun h => by
        rw [ih.2 h] at hl
        exact Option.noConfusion hl
      simp only [findLastNotOf, hl, List.mem_cons, forall_eq_or_imp]
      constructor
      · intro h
        exact Option.noConfusion h
      · intro h
        exact absurd h.2 hne
    | none =>
      have hall := ih.1 hl
      by_cases hc : isWhitespace c = true
      · simpa [findLastNotOf, hl, hc] using hall
      · simp [findLastNotOf, hl, hc]

/-- In `trim`, once `start` is found, `end` is found too, is not smaller than
`start` and is an index of the string. -/
theorem findLastNotOf_of_first (s : Str) (start : Nat) (h : findFirstNotOf s = some start) :
    ∃ stop, findLastNotOf s = some stop ∧ start ≤ stop ∧ stop < s.length := by
  induction s generalizing start with
  | nil => simp [findFirstNotOf] at h
  | cons c cs ih =>
    by_cases hc : isWhitespace c = true
    · simp only [findFirstNotOf, hc, if_true, Option.map_eq_some'] at h
      obtain ⟨i, hi, rfl⟩ := h
      obtain ⟨j, hj, hij, hjl⟩ := ih i hi
      refine ⟨j + 1, ?_, by omega, by simp; omega⟩
      simp [findLastNotOf, hj]
    · simp only [findFirstNotOf, hc, Bool.false_eq_true, if_false, Option.some.injEq] at h
      subst h
      cases hl : findLastNotOf cs with
      | some j =>
        have hjl : j < cs.length := by
          cases hf : findFirstNotOf cs with
          | none =>
            rw [(findLastNotOf_eq_none_iff cs).2 ((findFirstNotOf_eq_none_iff cs).1 hf)] at hl
            exact Option.noConfusion hl
          | some i =>
            obtain ⟨j', hj', _, hjl'⟩ := ih i hf
            rw [hl] at hj'
            cases hj'
            exact hjl'
        exact ⟨j + 1, by simp [findLastNotOf, hl], by omega, by simp; omega⟩
      | none => exact ⟨0, by simp [findLastNotOf, hl, hc], le_refl 0, by simp⟩

theorem trim_nil : trim [] = [] := by
  simp [trim, findFirstNotOf]

theorem trim_ws_cons (c : Char) (s : Str) (hc : isWhitespace c = true) :
    trim (c :: s) = trim s := by
  unfold trim
  cases hf : findFirstNotOf s with
  | none => simp [findFirstNotOf, hc, hf]
  | some i =>
    obtain ⟨j, hj, hij, _⟩ := findLastNotOf_of_first s i hf
    simp only [findFirstNotOf, hc, if_true, hf, Option.map_some', findLastNotOf, hj, substr,
      List.drop_succ_cons]
    congr 1
    omega

theorem trim_ws_append_left (w s : Str) (hw : ∀ c ∈ w, isWhitespace c = true) :
    trim (w ++ s) = trim s := by
  induction w with
  | nil => rfl
  | cons c cs ih =>
    rw [List.cons_append, trim_ws_cons _ _ (hw c (List.mem_cons_self _ _)),
      ih (fun x hx => hw x (List.mem_cons_of_mem _ hx))]

theorem findFirstNotOf_concat_ws (s : Str) (c : Char) (hc : isWhitespace c = true) :
    findFirstNotOf (s ++ [c]) = findFirstNotOf s := by
  induction s with
  | nil => simp [findFirstNotOf, hc]
  | cons a as ih => simp [findFirstNotOf, ih]

theorem findLastNotOf_concat_ws (s : Str) (c : Char) (hc : isWhitespace c = true) :
    findLastNotOf (s ++ [c]) = findLastNotOf s := by
  induction s with
  | nil => simp [findLastNotOf, hc]
  | cons a as ih => simp [findLastNotOf, ih]

theorem trim_ws_concat (s : Str) (c : Char) (hc : isWhitespace c = true) :
    trim (s ++ [c]) = trim s := by
  unfold trim
  rw [findFirstNotOf_concat_ws s c hc, findLastNotOf_concat_ws s c hc]
  cases hf : findFirstNotOf s with
  | none => rfl
  | some i =>
    obtain ⟨j, hj, hij, hjl⟩ := findLastNotOf_of_first s i hf
    simp only [hj, substr]
    rw [List.drop_append_of_le_length (by omega), List.take_append_of_le_length]
    rw [List.length_drop]
    omega

theorem trim_ws_append_right (s w : Str) (hw : ∀ c ∈ w, isWhitespace c = true) :
    trim (s ++ w) = trim s := by
  induction w generalizing s with
  | nil => simp
  | cons c cs ih =>
    have h := ih (s ++ [c]) (fun x hx => hw x (List.mem_cons_of_mem _ hx))
    rw [List.append_assoc, List.singleton_append] at h
    rw [h, trim_ws_concat _ _ (hw c (List.mem_cons_self _ _))]

theorem eq_nil_or_snoc (s : Str) : s = [] ∨ ∃ init b, s = init ++ [b] := by
  rcases List.eq_nil_or_concat s with h | ⟨init, b, h⟩
  · exact Or.inl h
  · exact Or.inr ⟨init, b, by rw [h, List.concat_eq_append]⟩

theorem findLastNotOf_concat_not_ws (s : Str) (c : Char) (hc : isWhitespace c = false) :
    findLastNotOf (s ++ [c]) = some s.length := by
  induction s with
  | nil => simp [findLastNotOf, hc]
  | cons a as ih => simp [findLastNotOf, ih]

theorem isTrimmed_iff (s : Str) :
    isTrimmed s = true ↔
      (∀ a ∈ s.head?, isWhitespace a = false) ∧ (∀ b ∈ s.getLast?, isWhitespace b = false) := by
  rcases eq_nil_or_snoc s with rfl | ⟨init, b, rfl⟩
  · simp [isTrimmed]
  · cases init with
    | nil => simp [isTrimmed]
    | cons a as =>
      have hl : (a :: (as ++ [b])).getLast? = some b := List.getLast?_concat (a :: as)
      simp [isTrimmed, hl]

theorem trim_of_isTrimmed (s : Str) (h : isTrimmed s = true) : trim s = s := by
  rcases eq_nil_or_snoc s with rfl | ⟨init, b, rfl⟩
  · exact trim_nil
  · have hb : isWhitespace b = false :=
      ((isTrimmed_iff _).1 h).2 b (by rw [List.getLast?_concat]; rfl)
    have hfirst : findFirstNotOf (init ++ [b]) = some 0 := by
      cases init with
      | nil => simp [findFirstNotOf, hb]
      | cons a as =>
        have ha : isWhitespace a = false := ((isTrimmed_iff _).1 h).1 a (by simp)
        simp [findFirstNotOf, ha]
    unfold trim
    rw [hfirst, findLastNotOf_concat_not_ws init b hb]
    simp [substr]

theorem exists_ws_suffix (s : Str) :
    ∃ core suf, s = core ++ suf ∧ (∀ c ∈ suf, isWhitespace c = true) ∧
      ∀ b ∈ core.getLast?, isWhitespace b = false := by
  induction s using List.reverseRecOn with
  | nil => exact ⟨[], [], rfl, by simp, by simp⟩
  | append_singleton s x ih =>
    by_cases hx : isWhitespace x = true
    · obtain ⟨core, suf, hs, hsuf, hcore⟩ := ih
      refine ⟨core, suf ++ [x], by rw [hs, List.append_assoc], ?_, hcore⟩
      intro c hc
      rcases List.mem_append.1 hc with h | h
      · exact hsuf c h
      · rw [List.mem_singleton.1 h]
        exact hx
    · refine ⟨s ++ [x], [], by simp, by simp, ?_⟩
      intro b hb
      rw [List.getLast?_concat] at hb
      have hbx : x = b := Option.some.inj hb
      subst hbx
      simpa using hx

theorem exists_ws_prefix (s : Str) (hs : ∀ b ∈ s.getLast?, isWhitespace b = false) :
    ∃ pre core, s = pre ++ core ∧ (∀ c ∈ pre, isWhitespace c = true) ∧
      isTrimmed core = true := by
  induction s with
  | nil => exact ⟨[], [], rfl, by simp, by simp [isTrimmed]⟩
  | cons c cs ih =>
    by_cases hc : isWhitespace c = true
    · cases cs with
      | nil =>
        have := hs c (by simp)
        rw [hc] at this
        exact Bool.noConfusion this
      | cons c2 cs2 =>
        obtain ⟨pre, core, h1, h2, h3⟩ := ih (by simpa [List.getLast?_cons_cons] using hs)
        refine ⟨c :: pre, core, by rw [h1, List.cons_append], ?_, h3⟩
        intro x hx
        rcases List.mem_cons.1 hx with h | h
        · rw [h]
          exact hc
        · exact h2 x h
    · refine ⟨[], c :: cs, rfl, by simp, ?_⟩
      rw [isTrimmed_iff]
      refine ⟨?_, hs⟩
      intro a ha
      simp only [List.head?_cons, Option.mem_def, Option.some.injEq] at ha
      subst ha
      simpa using hc

/-- The shape of `trim`: the string is a run of whitespace, then `trim` of
it, then a run of whitespace, and `trim` of it is trimmed. -/
theorem trim_decomp (s : Str) :
    ∃ pre suf, s = pre ++ (trim s ++ suf) ∧ (∀ c ∈ pre, isWhitespace c = true) ∧
      (∀ c ∈ suf, isWhitespace c = true) ∧ isTrimmed (trim s) = true := by
  obtain ⟨core1, suf, h1, hsuf, hlast⟩ := exists_ws_suffix s
  obtain ⟨pre, core, h2, hpre, hcore⟩ := exists_ws_prefix core1 hlast
  have ht : trim s = core := by
    rw [h1, trim_ws_append_right _ _ hsuf, h2, trim_ws_append_left _ _ hpre,
      trim_of_isTrimmed _ hcore]
  refine ⟨pre, suf, ?_, hpre, hsuf, ?_⟩
  · rw [ht, ← List.append_assoc, ← h2, ← h1]
  · rw [ht]
    exact hcore

theorem isTrimmed_trim (s : Str) : isTrimmed (trim s) = true :=
  (trim_decomp s).choose_spec.choose_spec.2.2.2

theorem trim_trim (s : Str) : trim (trim s) = trim s :=
  trim_of_isTrimmed _ (isTrimmed_trim s)

/-! ## The loop of `parse` -/

theorem keptRows_cons (d : Char) (s : Bool) (l : Str) (ls : List Str) :
    keptRows d s (l :: ls)
      = if (s && l.isEmpty) = true then keptRows d s ls
        else parseLine d (trim l) :: keptRows d s ls := by
  cases s <;> cases l <;> simp [keptRows, List.filter_cons]

theorem parseLoop_not_first (lines : List Str) (p : CSVParser) (result : List Row) :
    parseLoop lines p false result
      = (result ++ keptRows p.delimiter_ p.skipEmptyLines_ lines, p) := by
  induction lines generalizing result with
  | nil => simp [parseLoop, keptRows]
  | cons l ls ih =>
    unfold parseLoop
    rw [keptRows_cons]
    by_cases hs : (p.skipEmptyLines_ && l.isEmpty) = true
    · rw [if_pos hs, if_pos hs, ih]
    · rw [if_neg hs, if_neg hs]
      simp only [Bool.false_and, Bool.false_eq_true, if_false]
      rw [ih]
      simp

theorem parseLoop_no_header (lines : List Str) (p : CSVParser) (h : p.hasHeader_ = false)
    (firstLine : Bool) (result : List Row) :
    parseLoop lines p firstLine result
      = (result ++ keptRows p.delimiter_ p.skipEmptyLines_ lines, p) := by
  induction lines generalizing firstLine result with
  | nil => simp [parseLoop, keptRows]
  | cons l ls ih =>
    unfold parseLoop
    rw [keptRows_cons]
    by_cases hs : (p.skipEmptyLines_ && l.isEmpty) = true
    · rw [if_pos hs, if_pos hs, ih]
    · rw [if_neg hs, if_neg hs]
      simp only [h, Bool.and_false, Bool.false_eq_true, if_false]
      rw [ih]
      simp

theorem parseLoop_header (lines : List Str) (p : CSVParser) (h : p.hasHeader_ = true)
    (result : List Row) :
    parseLoop lines p true result
      = match keptRows p.delimiter_ p.skipEmptyLines_ lines with
        | [] => (result, p)
        | r :: rs => (result ++ rs, { p with headers_ := r }) := by
  induction lines with
  | nil => simp [parseLoop, keptRows]
  | cons l ls ih =>
    unfold parseLoop
    rw [keptRows_cons]
    by_cases hs : (p.skipEmptyLines_ && l.isEmpty) = true
    · rw [if_pos hs, if_pos hs, ih]
    · rw [if_neg hs, if_neg hs]
      simp only [h, Bool.and_true, if_true]
      rw [parseLoop_not_first]

theorem parse_no_header (d : Char) (s : Bool) (hdrs : Row) (text : Str) :
    (CSVParser.mk d false s hdrs).parse text
      = (keptRows d s (getLines text), CSVParser.mk d false s hdrs) := by
  unfold CSVParser.parse
  rw [parseLoop_no_header _ _ rfl]
  simp

theorem parse_header (d : Char) (s : Bool) (hdrs : Row) (text : Str) :
    (CSVParser.mk d true s hdrs).parse text
      = match keptRows d s (getLines text) with
        | [] => ([], CSVParser.mk d true s hdrs)
        | r :: rs => (rs, CSVParser.mk d true s r) := by
  unfold CSVParser.parse
  rw [parseLoop_header _ _ rfl]
  cases keptRows d s (getLines text) <;> simp

/-- The lines of `getLines` are those of successive `getline` calls. -/
theorem getLines_eq_getline (stream : Str) :
    getLines stream
      = match getline stream with
        | none => []
        | some (line, rest) => line :: getLines rest := by
  induction stream with
  | nil => simp [getLines, getline]
  | cons c cs ih =>
    by_cases hc : c = '\n'
    · subst hc
      simp [getLines, getline, List.takeWhile, List.dropWhile]
    · have hb : (c != '\n') = true := by simpa using hc
      cases cs with
      | nil => simp [getLines, getline, List.takeWhile, List.dropWhile, hb, hc]
      | cons c2 cs2 =>
        rw [getLines, if_neg hc, ih]
        simp only [getline, List.takeWhile, List.dropWhile, hb]

theorem run_no_header (d : Char) (s : Bool) (hdrs : Row) (calls : List Call) :
    (CSVParser.mk d false s hdrs).run calls = CSVParser.mk d false s hdrs := by
  induction calls with
  | nil => rfl
  | cons c cs ih =>
    have hstep : (CSVParser.mk d false s hdrs).call c = CSVParser.mk d false s hdrs := by
      cases c with
      | parse text => simp [CSVParser.call, parse_no_header]
      | parseToObjects text => simp [CSVParser.call, CSVParser.parseToObjects]
    unfold CSVParser.run at ih ⊢
    rw [List.foldl_cons, hstep, ih]

/-! ## The lines of a text -/

theorem getLines_newline_free (t : Str) : ∀ l ∈ getLines t, '\n' ∉ l := by
  induction t with
  | nil => simp [getLines]
  | cons c cs ih =>
    by_cases hc : c = '\n'
    · subst hc
      intro l hl
      simp only [getLines, if_true, List.mem_cons] at hl
      rcases hl with h | h
      · rw [h]
        simp
      · exact ih l h
    · intro l hl
      rw [getLines, if_neg hc] at hl
      cases hg : getLines cs with
      | nil =>
        rw [hg] at hl
        simp only [List.mem_singleton] at hl
        rw [hl]
        simpa using Ne.symm hc
      | cons l0 ls =>
        rw [hg] at hl ih
        simp only [List.mem_cons] at hl
        rcases hl with h | h
        · rw [h]
          simp only [List.mem_cons, not_or]
          exact ⟨Ne.symm hc, ih l0 (List.mem_cons_self _ _)⟩
        · exact ih l (List.mem_cons_of_mem _ h)

theorem getLines_line_newline (l rest : Str) (hl : '\n' ∉ l) :
    getLines (l ++ '\n' :: rest) = l :: getLines rest := by
  induction l with
  | nil => simp [getLines]
  | cons c cs ih =>
    simp only [List.mem_cons, not_or] at hl
    rw [List.cons_append, getLines, if_neg (Ne.symm hl.1), ih hl.2]

theorem getLines_single_line (l : Str) (hl : '\n' ∉ l) (hne : l ≠ []) :
    getLines l = [l] := by
  induction l with
  | nil => exact absurd rfl hne
  | cons c cs ih =>
    simp only [List.mem_cons, not_or] at hl
    rw [getLines, if_neg (Ne.symm hl.1)]
    cases cs with
    | nil => simp [getLines]
    | cons c2 cs2 => rw [ih hl.2 (List.cons_ne_nil _ _)]

theorem newline_intercalate_single (l : Str) : ['\n'].intercalate [l] = l := by
  simp [List.intercalate, List.intersperse]

theorem newline_intercalate_cons_cons (l l2 : Str) (ls : List Str) :
    ['\n'].intercalate (l :: l2 :: ls) = l ++ '\n' :: ['\n'].intercalate (l2 :: ls) := by
  simp [List.intercalate, List.intersperse]

/-- Joining non-empty lines with newline and splitting again gives the lines
back. -/
theorem getLines_intercalate (ls : List Str) (h1 : ∀ l ∈ ls, '\n' ∉ l)
    (h2 : ∀ l ∈ ls, l ≠ []) : getLines (['\n'].intercalate ls) = ls := by
  induction ls with
  | nil => simp [List.intercalate, getLines]
  | cons l ls ih =>
    cases ls with
    | nil =>
      rw [newline_intercalate_single]
      exact getLines_single_line l (h1 l (List.mem_cons_self _ _)) (h2 l (List.mem_cons_self _ _))
    | cons l2 ls2 =>
      rw [newline_intercalate_cons_cons, getLines_line_newline _ _ (h1 l (List.mem_cons_self _ _)),
        ih (fun x hx => h1 x (List.mem_cons_of_mem _ hx))
          (fun x hx => h2 x (List.mem_cons_of_mem _ hx))]

theorem getLines_dropEmptyLines (text : Str) :
    getLines (dropEmptyLines text) = (getLines text).filter (fun l => !l.isEmpty) := by
  unfold dropEmptyLines
  apply getLines_intercalate
  · intro l hl
    exact getLines_newline_free text l (List.mem_of_mem_filter hl)
  · intro l hl hnil
    have := (List.mem_filter.1 hl).2
    rw [hnil] at this
    simp at this

theorem keptRows_no_skip (d : Char) (lines : List Str) :
    keptRows d false lines = lines.map (fun l => parseLine d (trim l)) := by
  simp [keptRows]

theorem keptRows_skip (d : Char) (lines : List Str) :
    keptRows d true lines
      = (lines.filter (fun l => !l.isEmpty)).map (fun l => parseLine d (trim l)) := by
  simp [keptRows]

theorem keptRows_dropEmptyLines (d : Char) (text : Str) :
    keptRows d false (getLines (dropEmptyLines text)) = keptRows d true (getLines text) := by
  rw [getLines_dropEmptyLines, keptRows_no_skip, keptRows_skip]

/-- Each line of the `\r\n` text is non-empty and is the matching line of the
`\n` text, with `\r` appended when the line was ended by a newline. -/
theorem getLines_toCRLF (t : Str) :
    List.Forall₂ (fun l2 l => l2 ≠ [] ∧ (l2 = l ∨ l2 = l ++ ['\r']))
      (getLines (toCRLF t)) (getLines t) := by
  induction t with
  | nil => exact List.Forall₂.nil
  | cons c cs ih =>
    by_cases hc : c = '\n'
    · subst hc
      have h1 : getLines (toCRLF ('\n' :: cs)) = ['\r'] :: getLines (toCRLF cs) := by
        simp [toCRLF, getLines]
      have h2 : getLines ('\n' :: cs) = [] :: getLines cs := by
        simp [getLines]
      rw [h1, h2]
      exact List.Forall₂.cons ⟨by simp, Or.inr rfl⟩ ih
    · have h1 : getLines (toCRLF (c :: cs))
          = match getLines (toCRLF cs) with
            | [] => [[c]]
            | l :: ls => (c :: l) :: ls := by
        simp [toCRLF, getLines, hc]
      have h2 : getLines (c :: cs)
          = match getLines cs with
            | [] => [[c]]
            | l :: ls => (c :: l) :: ls := by
        simp [getLines, hc]
      rw [h1, h2]
      generalize getLines (toCRLF cs) = g2 at ih
      generalize getLines cs = g at ih
      cases ih with
      | nil => exact List.Forall₂.cons ⟨by simp, Or.inl rfl⟩ List.Forall₂.nil
      | cons hl hls =>
        refine List.Forall₂.cons ⟨by simp, ?_⟩ hls
        rcases hl.2 with h | h
        · exact Or.inl (by rw [h])
        · exact Or.inr (by rw [h, List.cons_append])

theorem keptRows_of_crlf_lines (d : Char) (s : Bool) (ls2 ls : List Str)
    (h : List.Forall₂ (fun l2 l => l2 ≠ [] ∧ (l2 = l ∨ l2 = l ++ ['\r'])) ls2 ls) :
    keptRows d s ls2 = keptRows d false ls := by
  induction h with
  | nil => rfl
  | @cons l2 l ls2 ls hl _ ih =>
    have hne : (s && l2.isEmpty) = false := by
      cases l2 with
      | nil => exact absurd rfl hl.1
      | cons a as => simp
    have htrim : trim l2 = trim l := by
      rcases hl.2 with h | h
      · rw [h]
      · rw [h, trim_ws_concat _ _ (by decide)]
    rw [keptRows_cons, keptRows_cons, hne, htrim, ih]
    simp

/-- No line of a `\r\n` text is skipped: its kept rows are those of the `\n`
text when no line is skipped there. -/
theorem keptRows_toCRLF (d : Char) (s : Bool) (t : Str) :
    keptRows d s (getLines (toCRLF t)) = keptRows d false (getLines t) :=
  keptRows_of_crlf_lines d s _ _ (getLines_toCRLF t)

theorem keptRows_no_blank (d : Char) (s : Bool) (lines : List Str)
    (h : s = false ∨ [] ∉ lines) : keptRows d s lines = keptRows d false lines := by
  rcases h with h | h
  · rw [h]
  · cases s with
    | false => rfl
    | true =>
      rw [keptRows_skip, keptRows_no_skip, List.filter_eq_self.2]
      intro l hl
      cases l with
      | nil => exact absurd hl h
      | cons a as => simp

theorem count_newline_cons (c : Char) (cs : Str) (hc : ¬c = '\n') :
    (c :: cs).count '\n' = cs.count '\n' := by
  rw [List.count_cons]
  simp [hc]

theorem getLines_ne_nil (c : Char) (cs : Str) : getLines (c :: cs) ≠ [] := by
  by_cases hc : c = '\n'
  · simp [getLines, hc]
  · rw [getLines, if_neg hc]
    cases getLines cs <;> simp

/-- The number of lines: one per newline, and one more for a last line that
no newline ends. -/
theorem getLines_length (t : Str) :
    (getLines t).length
      = t.count '\n' + (if t ≠ [] ∧ t.getLast? ≠ some '\n' then 1 else 0) := by
  induction t with
  | nil => simp [getLines]
  | cons c cs ih =>
    cases cs with
    | nil =>
      by_cases hc : c = '\n'
      · simp [getLines, hc]
      · simp [getLines, hc, count_newline_cons]
    | cons c2 cs2 =>
      have hlast : (c :: c2 :: cs2).getLast? = (c2 :: cs2).getLast? := List.getLast?_cons_cons
      rw [hlast]
      simp only [ne_eq, reduceCtorEq, not_false_eq_true, true_and] at ih ⊢
      by_cases hc : c = '\n'
      · subst hc
        rw [getLines, if_pos rfl, List.length_cons, ih, List.count_cons_self]
        omega
      · rw [getLines, if_neg hc, count_newline_cons c _ hc]
        have hne := getLines_ne_nil c2 cs2
        cases hg : getLines (c2 :: cs2) with
        | nil => exact absurd hg hne
        | cons l ls =>
          rw [hg] at ih
          simpa using ih

/-- Where `skipEmptyLines` is false or the text has no zero-length line, `parse`
of the text with every `\n` replaced by `\r\n` returns the same rows and leaves
the same headers as `parse` of the text. -/
theorem parse_toCRLF_of_no_blank (d : Char) (h s : Bool) (hdrs : Row) (t : Str)
    (hblank : s = false ∨ [] ∉ getLines t) :
    ((CSVParser.mk d h s hdrs).parse (toCRLF t)).1 = ((CSVParser.mk d h s hdrs).parse t).1 ∧
      ((CSVParser.mk d h s hdrs).parse (toCRLF t)).2.getHeaders
        = ((CSVParser.mk d h s hdrs).parse t).2.getHeaders := by
  have hk : keptRows d s (getLines (toCRLF t)) = keptRows d s (getLines t) := by
    rw [keptRows_toCRLF, keptRows_no_blank d s _ hblank]
  cases h with
  | false => rw [parse_no_header, parse_no_header, hk]; exact ⟨rfl, rfl⟩
  | true => rw [parse_header, parse_header, hk]; exact ⟨rfl, rfl⟩

/-! ## Records -/

theorem find_assign (m : Record) (k v k' : Str) :
    (Record.assign m k v).find k' = if k' = k then some v else m.find k' := by
  induction m with
  | nil => simp [Record.assign, Record.find]
  | cons e m ih =>
    obtain ⟨k0, v0⟩ := e
    unfold Record.assign
    by_cases h1 : k = k0
    · subst h1
      by_cases h2 : k' = k <;> simp [Record.find, h2]
    · rw [if_neg h1]
      by_cases h3 : k < k0
      · rw [if_pos h3]
        by_cases h2 : k' = k <;> simp [Record.find, h2]
      · rw [if_neg h3]
        by_cases h2 : k' = k
        · subst h2
          simp [Record.find, h1, ih]
        · have h5 : ¬k0 = k := fun h => h1 h.symm
          by_cases h4 : k' = k0
          · subst h4
            simp [Record.find, h5, ih]
          · simp [Record.find, h2, h4, ih]

theorem mem_keys_assign (m : Record) (k v k' : Str) :
    k' ∈ (Record.assign m k v).keys ↔ k' = k ∨ k' ∈ m.keys := by
  induction m with
  | nil => simp [Record.assign, Record.keys]
  | cons e m ih =>
    obtain ⟨k0, v0⟩ := e
    unfold Record.assign
    by_cases h1 : k = k0
    · subst h1
      simp [Record.keys]
    · rw [if_neg h1]
      by_cases h3 : k < k0
      · rw [if_pos h3]
        simp [Record.keys]
      · rw [if_neg h3]
        simp only [Record.keys, List.map_cons, List.mem_cons] at ih ⊢
        rw [ih]
        tauto

theorem length_assign_of_not_mem (m : Record) (k v : Str) (h : k ∉ m.keys) :
    (Record.assign m k v).length = m.length + 1 := by
  induction m with
  | nil => simp [Record.assign]
  | cons e m ih =>
    obtain ⟨k0, v0⟩ := e
    simp only [Record.keys, List.map_cons, List.mem_cons, not_or] at h ih
    unfold Record.assign
    rw [if_neg h.1]
    by_cases h3 : k < k0
    · rw [if_pos h3]
      simp
    · rw [if_neg h3]
      simp [ih h.2]

theorem find_eq_none_of_not_mem (m : Record) (k : Str) (h : k ∉ m.keys) :
    m.find k = none := by
  induction m with
  | nil => rfl
  | cons e m ih =>
    obtain ⟨k0, v0⟩ := e
    simp only [Record.keys, List.map_cons, List.mem_cons, not_or] at h ih
    simp [Record.find, h.1, ih h.2]

theorem find_assignAll_of_not_mem (ps : List (Str × Str)) (m : Record) (k : Str)
    (h : k ∉ ps.map Prod.fst) : (m.assignAll ps).find k = m.find k := by
  induction ps generalizing m with
  | nil => rfl
  | cons e ps ih =>
    simp only [List.map_cons, List.mem_cons, not_or] at h
    unfold Record.assignAll at ih ⊢
    rw [List.foldl_cons, ih _ h.2, find_assign, if_neg h.1]

theorem find_assignAll_of_mem (ps : List (Str × Str)) (m : Record) (k v : Str)
    (hnd : (ps.map Prod.fst).Nodup) (h : (k, v) ∈ ps) :
    (m.assignAll ps).find k = some v := by
  induction ps generalizing m with
  | nil => simp at h
  | cons e ps ih =>
    simp only [List.map_cons, List.nodup_cons] at hnd
    unfold Record.assignAll at ih ⊢
    rw [List.foldl_cons]
    rcases List.mem_cons.1 h with h1 | h1
    · subst h1
      have := find_assignAll_of_not_mem ps (Record.assign m k v) k hnd.1
      unfold Record.assignAll at this
      rw [this, find_assign, if_pos rfl]
    · exact ih _ hnd.2 h1

theorem mem_of_find_assignAll (ps : List (Str × Str)) (m : Record) (k v : Str)
    (h : (m.assignAll ps).find k = some v) : m.find k = some v ∨ (k, v) ∈ ps := by
  induction ps generalizing m with
  | nil => exact Or.inl h
  | cons e ps ih =>
    unfold Record.assignAll at ih h
    rw [List.foldl_cons] at h
    rcases ih _ h with h1 | h1
    · rw [find_assign] at h1
      by_cases h2 : k = e.1
      · rw [if_pos h2] at h1
        right
        have hv : e.2 = v := Option.some.inj h1
        exact List.mem_cons.2 (Or.inl (by rw [h2, ← hv]))
      · rw [if_neg h2] at h1
        exact Or.inl h1
    · exact Or.inr (List.mem_cons_of_mem _ h1)

theorem mem_keys_assignAll (ps : List (Str × Str)) (m : Record) (k : Str) :
    k ∈ (m.assignAll ps).keys ↔ k ∈ m.keys ∨ k ∈ ps.map Prod.fst := by
  induction ps generalizing m with
  | nil => simp [Record.assignAll]
  | cons e ps ih =>
    unfold Record.assignAll at ih ⊢
    rw [List.foldl_cons, ih, mem_keys_assign]
    simp only [List.map_cons, List.mem_cons]
    tauto

theorem length_assignAll (ps : List (Str × Str)) (m : Record)
    (hnd : (ps.map Prod.fst).Nodup) (hdis : ∀ k ∈ ps.map Prod.fst, k ∉ m.keys) :
    (m.assignAll ps).length = m.length + ps.length := by
  induction ps generalizing m with
  | nil => rfl
  | cons e ps ih =>
    simp only [List.map_cons, List.nodup_cons] at hnd
    unfold Record.assignAll at ih ⊢
    rw [List.foldl_cons, ih _ hnd.2, length_assign_of_not_mem]
    · simp only [List.length_cons]
      omega
    · exact hdis _ (List.mem_cons_self _ _)
    · intro k hk hk2
      rcases (mem_keys_assign m e.1 e.2 k).1 hk2 with h1 | h1
      · exact hnd.1 (h1 ▸ hk)
      · exact hdis k (List.mem_cons_of_mem _ hk) h1

/-- The index/value pairs that the loop of `parseToObjects` assigns. -/
theorem objLoop_eq (headers row : Row) (k i : Nat)
    (h : i + k ≤ min headers.length row.length) (obj : Record) :
    objLoop headers row k i h obj
      = (List.range' i k).foldl
          (fun m j => Record.assign m (headers.getD j []) (row.getD j [])) obj := by
  induction k generalizing i obj with
  | zero => rfl
  | succ k ih =>
    unfold objLoop
    rw [ih, List.range'_succ, List.foldl_cons, List.get_eq_getElem, List.get_eq_getElem,
      List.getD_eq_getElem, List.getD_eq_getElem]

theorem buildObj_eq_insertPairs (headers row : Row) :
    buildObj headers row = insertPairs headers row := by
  unfold buildObj insertPairs
  rw [objLoop_eq, List.range_eq_range']

theorem insertPairs_eq_assignAll (headers row : Row) :
    insertPairs headers row
      = Record.assignAll []
          ((List.range (min headers.length row.length)).map
            (fun i => (headers.getD i [], row.getD i []))) := by
  unfold insertPairs Record.assignAll
  rw [List.foldl_map]

theorem pairs_keys (headers row : Row) (n : Nat) :
    ((List.range n).map (fun i => (headers.getD i [], row.getD i []))).map Prod.fst
      = (List.range n).map (fun i => headers.getD i []) := by
  rw [List.map_map]
  rfl

theorem pairs_keys_nodup (headers row : Row) (hnd : headers.Nodup) (n : Nat)
    (hn : n ≤ headers.length) :
    (((List.range n).map (fun i => (headers.getD i [], row.getD i []))).map Prod.fst).Nodup := by
  rw [pairs_keys]
  refine List.Nodup.map_on ?_ (List.nodup_range n)
  intro x hx y hy hxy
  have hx' : x < headers.length := lt_of_lt_of_le (List.mem_range.1 hx) hn
  have hy' : y < headers.length := lt_of_lt_of_le (List.mem_range.1 hy) hn
  rw [List.getD_eq_getElem _ _ hx', List.getD_eq_getElem _ _ hy'] at hxy
  exact (List.Nodup.getElem_inj_iff hnd).1 hxy

theorem insertPairs_length (headers row : Row) (hnd : headers.Nodup) :
    (insertPairs headers row).length = min headers.length row.length := by
  rw [insertPairs_eq_assignAll, length_assignAll]
  · simp
  · exact pairs_keys_nodup headers row hnd _ (Nat.min_le_left _ _)
  · intro k _ hk
    simp [Record.keys] at hk

theorem insertPairs_find (headers row : Row) (hnd : headers.Nodup) (i : Nat)
    (hi : i < headers.length) (hr : i < row.length) :
    (insertPairs headers row).find (headers.get ⟨i, hi⟩) = some (row.get ⟨i, hr⟩) := by
  rw [insertPairs_eq_assignAll]
  apply find_assignAll_of_mem
  · exact pairs_keys_nodup headers row hnd _ (Nat.min_le_left _ _)
  · refine List.mem_map.2 ⟨i, List.mem_range.2 (lt_min hi hr), ?_⟩
    rw [List.getD_eq_getElem _ _ hi, List.getD_eq_getElem _ _ hr, List.get_eq_getElem,
      List.get_eq_getElem]

theorem insertPairs_find_none (headers row : Row) (hnd : headers.Nodup) (i : Nat)
    (hi : i < headers.length) (hr : row.length ≤ i) :
    (insertPairs headers row).find (headers.get ⟨i, hi⟩) = none := by
  rw [insertPairs_eq_assignAll, find_assignAll_of_not_mem]
  · rfl
  · rw [pairs_keys]
    intro hmem
    obtain ⟨j, hj, hjk⟩ := List.mem_map.1 hmem
    have hj' : j < min headers.length row.length := List.mem_range.1 hj
    have hjh : j < headers.length := lt_of_lt_of_le hj' (Nat.min_le_left _ _)
    have hjr : j < row.length := lt_of_lt_of_le hj' (Nat.min_le_right _ _)
    rw [List.getD_eq_getElem _ _ hjh, List.get_eq_getElem] at hjk
    have hji : j = i := (List.Nodup.getElem_inj_iff hnd).1 hjk
    omega

theorem insertPairs_sound (headers row : Row) (k v : Str)
    (h : (insertPairs headers row).find k = some v) :
    ∃ (i : Nat) (hi : i < headers.length) (hr : i < row.length),
      headers.get ⟨i, hi⟩ = k ∧ row.get ⟨i, hr⟩ = v := by
  rw [insertPairs_eq_assignAll] at h
  rcases mem_of_find_assignAll _ _ _ _ h with h1 | h1
  · simp [Record.find] at h1
  · obtain ⟨j, hj, hjk⟩ := List.mem_map.1 h1
    have hj' : j < min headers.length row.length := List.mem_range.1 hj
    have hjh : j < headers.length := lt_of_lt_of_le hj' (Nat.min_le_left _ _)
    have hjr : j < row.length := lt_of_lt_of_le hj' (Nat.min_le_right _ _)
    rw [List.getD_eq_getElem _ _ hjh, List.getD_eq_getElem _ _ hjr] at hjk
    refine ⟨j, hjh, hjr, ?_, ?_⟩
    · rw [List.get_eq_getElem]
      exact congrArg Prod.fst hjk
    · rw [List.get_eq_getElem]
      exact congrArg Prod.snd hjk

theorem parseToObjects_header (d : Char) (s : Bool) (hdrs : Row) (text : Str) :
    ((CSVParser.mk d true s hdrs).parseToObjects text).1
      = ((CSVParser.mk d true s hdrs).parse text).1.map
          (insertPairs ((CSVParser.mk d true s hdrs).parse text).2.getHeaders) := by
  simp only [CSVParser.parseToObjects, CSVParser.getHeaders, Bool.not_true, Bool.false_eq_true,
    if_false]
  apply List.map_congr_left
  intro r _
  exact buildObj_eq_insertPairs _ r

theorem keys_assign_perm (m : Record) (k v : Str) (h : k ∉ m.keys) :
    (Record.assign m k v).keys.Perm (k :: m.keys) := by
  induction m with
  | nil => simp [Record.assign, Record.keys]
  | cons e m ih =>
    obtain ⟨k0, v0⟩ := e
    simp only [Record.keys, List.map_cons, List.mem_cons, not_or] at h ih
    unfold Record.assign
    rw [if_neg h.1]
    by_cases h3 : k < k0
    · rw [if_pos h3]
      simp [Record.keys]
    · rw [if_neg h3]
      simp only [Record.keys, List.map_cons]
      exact ((ih h.2).cons k0).trans (List.Perm.swap k k0 _)

theorem keys_assignAll_nodup (ps : List (Str × Str)) (m : Record)
    (hm : m.keys.Nodup) (hnd : (ps.map Prod.fst).Nodup)
    (hdis : ∀ k ∈ ps.map Prod.fst, k ∉ m.keys) : (m.assignAll ps).keys.Nodup := by
  induction ps generalizing m with
  | nil => exact hm
  | cons e ps ih =>
    simp only [List.map_cons, List.nodup_cons] at hnd
    have hk : e.1 ∉ m.keys := hdis _ (List.mem_cons_self _ _)
    unfold Record.assignAll at ih ⊢
    rw [List.foldl_cons]
    apply ih _ _ hnd.2
    · intro k hk1 hk2
      rcases (mem_keys_assign m e.1 e.2 k).1 hk2 with h1 | h1
      · exact hnd.1 (h1 ▸ hk1)
      · exact hdis k (List.mem_cons_of_mem _ hk1) h1
    · exact (keys_assign_perm m e.1 e.2 hk).nodup_iff.2 (List.nodup_cons.2 ⟨hk, hm⟩)

theorem insertPairs_keys_nodup (headers row : Row) (hnd : headers.Nodup) :
    (insertPairs headers row).keys.Nodup := by
  rw [insertPairs_eq_assignAll]
  apply keys_assignAll_nodup
  · simp [Record.keys]
  · exact pairs_keys_nodup headers row hnd _ (Nat.min_le_left _ _)
  · intro k _ hk
    simp [Record.keys] at hk

theorem parseToObjects_header_state (d : Char) (s : Bool) (hdrs : Row) (text : Str) :
    ((CSVParser.mk d true s hdrs).parseToObjects text).2
      = ((CSVParser.mk d true s hdrs).parse text).2 := by
  simp [CSVParser.parseToObjects]

/-! ## The tokenizer -/

theorem loop_escaped (d c : Char) (rest field : Str) (fields : Row) (q : Bool) :
    parseLineLoop d (c :: rest) field fields q true
      = parseLineLoop d rest (field ++ [c]) fields q false := by
  rw [parseLineLoop.eq_def]
  simp

theorem loop_backslash (d : Char) (rest field : Str) (fields : Row) (q : Bool) :
    parseLineLoop d ('\\' :: rest) field fields q false
      = parseLineLoop d rest field fields q true := by
  rw [parseLineLoop.eq_def]
  simp

theorem loop_quote_open (d : Char) (rest field : Str) (fields : Row) :
    parseLineLoop d ('"' :: rest) field fields false false
      = parseLineLoop d rest field fields true false := by
  rw [parseLineLoop.eq_def]
  cases rest <;> simp

theorem loop_quote_pair (d : Char) (rest field : Str) (fields : Row) :
    parseLineLoop d ('"' :: '"' :: rest) field fields true false
      = parseLineLoop d rest (field ++ ['"']) fields true false := by
  rw [parseLineLoop.eq_def]
  simp

theorem loop_quote_close_end (d : Char) (field : Str) (fields : Row) :
    parseLineLoop d ['"'] field fields true false = fields ++ [trim field] := by
  rw [parseLineLoop.eq_def]
  simp [parseLineLoop]

theorem loop_quote_close (d c : Char) (rest field : Str) (fields : Row) (hc : c ≠ '"') :
    parseLineLoop d ('"' :: c :: rest) field fields true false
      = parseLineLoop d (c :: rest) field fields false false := by
  rw [parseLineLoop.eq_def]
  simp [hc]

theorem loop_plain_in_quotes (d c : Char) (rest field : Str) (fields : Row)
    (h1 : c ≠ '\\') (h2 : c ≠ '"') :
    parseLineLoop d (c :: rest) field fields true false
      = parseLineLoop d rest (field ++ [c]) fields true false := by
  rw [parseLineLoop.eq_def]
  simp [h1, h2]

theorem loop_delimiter (d : Char) (rest field : Str) (fields : Row)
    (h1 : d ≠ '\\') (h2 : d ≠ '"') :
    parseLineLoop d (d :: rest) field fields false false
      = parseLineLoop d rest [] (fields ++ [trim field]) false false := by
  rw [parseLineLoop.eq_def]
  simp [h1, h2]

/-! One step of the loop, in each branch of its body. -/

theorem step_nil (d : Char) (f : Str) (fs : Row) (q e : Bool) :
    parseLineLoop d [] f fs q e = fs ++ [trim f] := by
  rw [parseLineLoop.eq_def]

theorem step_bs (d : Char) (rest f : Str) (fs : Row) (q e : Bool) (he : ¬e = true) :
    parseLineLoop d ('\\' :: rest) f fs q e = parseLineLoop d rest f fs q true := by
  rw [parseLineLoop.eq_def]
  simp [he]

theorem step_quote_end (d : Char) (f : Str) (fs : Row) (q e : Bool) (he : ¬e = true) :
    parseLineLoop d ['"'] f fs q e = parseLineLoop d [] f fs (!q) e := by
  rw [parseLineLoop.eq_def]
  simp [he]

theorem step_pair (d c' : Char) (rest' f : Str) (fs : Row) (q e : Bool) (he : ¬e = true)
    (hp : (q && c' == '"') = true) :
    parseLineLoop d ('"' :: c' :: rest') f fs q e
      = parseLineLoop d rest' (f ++ ['"']) fs q e := by
  rw [parseLineLoop.eq_def]
  simp only [he, if_false, hp, if_true]
  simp

theorem step_toggle (d c' : Char) (rest' f : Str) (fs : Row) (q e : Bool) (he : ¬e = true)
    (hp : ¬(q && c' == '"') = true) :
    parseLineLoop d ('"' :: c' :: rest') f fs q e
      = parseLineLoop d (c' :: rest') f fs (!q) e := by
  rw [parseLineLoop.eq_def]
  simp only [he, if_false, hp]
  simp

theorem step_delim (d c : Char) (rest f : Str) (fs : Row) (q e : Bool) (he : ¬e = true)
    (h1 : ¬c = '\\') (h2 : ¬c = '"') (hd : (c == d && !q) = true) :
    parseLineLoop d (c :: rest) f fs q e
      = parseLineLoop d rest [] (fs ++ [trim f]) q e := by
  rw [parseLineLoop.eq_def]
  simp only [he, if_false, h1, h2, hd, if_true]
  simp

theorem step_plain (d c : Char) (rest f : Str) (fs : Row) (q e : Bool) (he : ¬e = true)
    (h1 : ¬c = '\\') (h2 : ¬c = '"') (hd : ¬(c == d && !q) = true) :
    parseLineLoop d (c :: rest) f fs q e = parseLineLoop d rest (f ++ [c]) fs q e := by
  rw [parseLineLoop.eq_def]
  simp only [he, if_false, h1, h2, hd]
  simp

theorem exit_nil (d : Char) (f : Str) (fs : Row) (q e : Bool) :
    parseLineExit d [] f fs q e = (f, fs, q, e) := by
  rw [parseLineExit.eq_def]

theorem exit_esc (d c : Char) (rest f : Str) (fs : Row) (q : Bool) :
    parseLineExit d (c :: rest) f fs q true = parseLineExit d rest (f ++ [c]) fs q false := by
  rw [parseLineExit.eq_def]
  simp

theorem exit_bs (d : Char) (rest f : Str) (fs : Row) (q e : Bool) (he : ¬e = true) :
    parseLineExit d ('\\' :: rest) f fs q e = parseLineExit d rest f fs q true := by
  rw [parseLineExit.eq_def]
  simp [he]

theorem exit_quote_end (d : Char) (f : Str) (fs : Row) (q e : Bool) (he : ¬e = true) :
    parseLineExit d ['"'] f fs q e = (f, fs, !q, e) := by
  rw [parseLineExit.eq_def]
  simp [he, exit_nil]

theorem exit_pair (d c' : Char) (rest' f : Str) (fs : Row) (q e : Bool) (he : ¬e = true)
    (hp : (q && c' == '"') = true) :
    parseLineExit d ('"' :: c' :: rest') f fs q e
      = parseLineExit d rest' (f ++ ['"']) fs q e := by
  rw [parseLineExit.eq_def]
  simp only [he, if_false, hp, if_true]
  simp

theorem exit_toggle (d c' : Char) (rest' f : Str) (fs : Row) (q e : Bool) (he : ¬e = true)
    (hp : ¬(q && c' == '"') = true) :
    parseLineExit d ('"' :: c' :: rest') f fs q e
      = parseLineExit d (c' :: rest') f fs (!q) e := by
  rw [parseLineExit.eq_def]
  simp only [he, if_false, hp]
  simp

theorem exit_delim (d c : Char) (rest f : Str) (fs : Row) (q e : Bool) (he : ¬e = true)
    (h1 : ¬c = '\\') (h2 : ¬c = '"') (hd : (c == d && !q) = true) :
    parseLineExit d (c :: rest) f fs q e
      = parseLineExit d rest [] (fs ++ [trim f]) q e := by
  rw [parseLineExit.eq_def]
  simp only [he, if_false, h1, h2, hd, if_true]
  simp

theorem exit_plain (d c : Char) (rest f : Str) (fs : Row) (q e : Bool) (he : ¬e = true)
    (h1 : ¬c = '\\') (h2 : ¬c = '"') (hd : ¬(c == d && !q) = true) :
    parseLineExit d (c :: rest) f fs q e = parseLineExit d rest (f ++ [c]) fs q e := by
  rw [parseLineExit.eq_def]
  simp only [he, if_false, h1, h2, hd]
  simp

/-- The result of the tokenizer is the exit value of `fields` followed by the
trimmed exit value of `field`. -/
theorem parseLineLoop_eq_exit (d : Char) (line f : Str) (fs : Row) (q e : Bool) :
    parseLineLoop d line f fs q e
      = (parseLineExit d line f fs q e).2.1 ++ [trim (parseLineExit d line f fs q e).1] := by
  induction line, f, fs, q, e using parseLineLoop.induct d with
  | case1 f fs q e => rw [step_nil, exit_nil]
  | case2 c rest f fs q ih => rw [loop_escaped, exit_esc, ih]
  | case3 rest f fs q e he ih => rw [step_bs _ _ _ _ _ _ he, exit_bs _ _ _ _ _ _ he, ih]
  | case4 f fs q e he _ ih => rw [step_quote_end _ _ _ _ _ he, exit_quote_end _ _ _ _ _ he, step_nil]
  | case5 f fs q e he c' rest' hp _ ih =>
    rw [step_pair _ _ _ _ _ _ _ he hp, exit_pair _ _ _ _ _ _ _ he hp, ih]
  | case6 f fs q e he c' rest' hp _ ih =>
    rw [step_toggle _ _ _ _ _ _ _ he hp, exit_toggle _ _ _ _ _ _ _ he hp, ih]
  | case7 c rest f fs q e he h1 h2 hd ih =>
    rw [step_delim _ _ _ _ _ _ _ he h1 h2 hd, exit_delim _ _ _ _ _ _ _ he h1 h2 hd, ih]
  | case8 c rest f fs q e he h1 h2 hd ih =>
    rw [step_plain _ _ _ _ _ _ _ he h1 h2 hd, exit_plain _ _ _ _ _ _ _ he h1 h2 hd, ih]

/-- Every field that the tokenizer returns is trimmed. -/
theorem parseLineLoop_trimmed (d : Char) (line f : Str) (fs : Row) (q e : Bool)
    (hfs : ∀ x ∈ fs, isTrimmed x = true) :
    ∀ x ∈ parseLineLoop d line f fs q e, isTrimmed x = true := by
  induction line, f, fs, q, e using parseLineLoop.induct d with
  | case1 f fs q e =>
    rw [step_nil]
    intro x hx
    rcases List.mem_append.1 hx with h | h
    · exact hfs x h
    · rw [List.mem_singleton.1 h]
      exact isTrimmed_trim f
  | case2 c rest f fs q ih =>
    rw [loop_escaped]
    exact ih hfs
  | case3 rest f fs q e he ih =>
    rw [step_bs _ _ _ _ _ _ he]
    exact ih hfs
  | case4 f fs q e he _ ih =>
    rw [step_quote_end _ _ _ _ _ he]
    exact ih hfs
  | case5 f fs q e he c' rest' hp _ ih =>
    rw [step_pair _ _ _ _ _ _ _ he hp]
    exact ih hfs
  | case6 f fs q e he c' rest' hp _ ih =>
    rw [step_toggle _ _ _ _ _ _ _ he hp]
    exact ih hfs
  | case7 c rest f fs q e he h1 h2 hd ih =>
    rw [step_delim _ _ _ _ _ _ _ he h1 h2 hd]
    apply ih
    intro x hx
    rcases List.mem_append.1 hx with h | h
    · exact hfs x h
    · rw [List.mem_singleton.1 h]
      exact isTrimmed_trim f
  | case8 c rest f fs q e he h1 h2 hd ih =>
    rw [step_plain _ _ _ _ _ _ _ he h1 h2 hd]
    exact ih hfs

/-- The tokenizer adds at least one field. -/
theorem parseLineLoop_length_ge (d : Char) (line f : Str) (fs : Row) (q e : Bool) :
    fs.length + 1 ≤ (parseLineLoop d line f fs q e).length := by
  rw [parseLineLoop_eq_exit]
  have hmono : fs.length ≤ (parseLineExit d line f fs q e).2.1.length := by
    induction line, f, fs, q, e using parseLineLoop.induct d with
    | case1 f fs q e => rw [exit_nil]
    | case2 c rest f fs q ih => rw [exit_esc]; exact ih
    | case3 rest f fs q e he ih => rw [exit_bs _ _ _ _ _ _ he]; exact ih
    | case4 f fs q e he _ ih => rw [exit_quote_end _ _ _ _ _ he]
    | case5 f fs q e he c' rest' hp _ ih => rw [exit_pair _ _ _ _ _ _ _ he hp]; exact ih
    | case6 f fs q e he c' rest' hp _ ih => rw [exit_toggle _ _ _ _ _ _ _ he hp]; exact ih
    | case7 c rest f fs q e he h1 h2 hd ih =>
      rw [exit_delim _ _ _ _ _ _ _ he h1 h2 hd]
      simp only [List.length_append, List.length_singleton] at ih
      omega
    | case8 c rest f fs q e he h1 h2 hd ih =>
      rw [exit_plain _ _ _ _ _ _ _ he h1 h2 hd]; exact ih
  simp only [List.length_append, List.length_singleton]
  omega

/-- With the quote or the backslash as delimiter the delimiter branch is never
taken: the tokenizer adds exactly one field. -/
theorem parseLineLoop_length_special (d : Char) (hd : d = '"' ∨ d = '\\')
    (line f : Str) (fs : Row) (q e : Bool) :
    (parseLineLoop d line f fs q e).length = fs.length + 1 := by
  induction line, f, fs, q, e using parseLineLoop.induct d with
  | case1 f fs q e => rw [step_nil]; simp
  | case2 c rest f fs q ih => rw [loop_escaped]; exact ih
  | case3 rest f fs q e he ih => rw [step_bs _ _ _ _ _ _ he]; exact ih
  | case4 f fs q e he _ ih => rw [step_quote_end _ _ _ _ _ he]; exact ih
  | case5 f fs q e he c' rest' hp _ ih => rw [step_pair _ _ _ _ _ _ _ he hp]; exact ih
  | case6 f fs q e he c' rest' hp _ ih => rw [step_toggle _ _ _ _ _ _ _ he hp]; exact ih
  | case7 c rest f fs q e he h1 h2 hdel ih =>
    exfalso
    have hcd : c = d := by
      simp only [Bool.and_eq_true, beq_iff_eq] at hdel
      exact hdel.1
    rcases hd with h | h
    · exact h2 (hcd.trans h)
    · exact h1 (hcd.trans h)
  | case8 c rest f fs q e he h1 h2 hdel ih =>
    rw [step_plain _ _ _ _ _ _ _ he h1 h2 hdel]; exact ih

/-- Inside quotes, a run of characters free of quote and backslash is copied
to the field, the delimiter included. -/
theorem loop_run_in_quotes (d : Char) (f rest field : Str) (fields : Row)
    (h1 : '\\' ∉ f) (h2 : '"' ∉ f) :
    parseLineLoop d (f ++ rest) field fields true false
      = parseLineLoop d rest (field ++ f) fields true false := by
  induction f generalizing field with
  | nil => simp
  | cons c cs ih =>
    simp only [List.mem_cons, not_or] at h1 h2
    rw [List.cons_append, loop_plain_in_quotes d c _ _ _ (Ne.symm h1.1) (Ne.symm h2.1),
      ih _ h1.2 h2.2]
    simp

theorem quotedLine_single (d : Char) (f : Str) : quotedLine d [f] = quoted f := by
  simp [quotedLine, List.intercalate, List.intersperse]

theorem quotedLine_cons_cons (d : Char) (f g : Str) (fs : List Str) :
    quotedLine d (f :: g :: fs) = quoted f ++ d :: quotedLine d (g :: fs) := by
  simp [quotedLine, List.intercalate, List.intersperse]

theorem loop_quotedLine (d : Char) (hd1 : d ≠ '"') (hd2 : d ≠ '\\') (fs : List Str)
    (hne : fs ≠ []) (hfree : ∀ f ∈ fs, '"' ∉ f ∧ '\\' ∉ f) (fields : Row) :
    parseLineLoop d (quotedLine d fs) [] fields false false = fields ++ fs.map trim := by
  induction fs generalizing fields with
  | nil => exact absurd rfl hne
  | cons f gs ih =>
    have hf := hfree f (List.mem_cons_self _ _)
    cases gs with
    | nil =>
      simp only [quotedLine_single, quoted]
      rw [loop_quote_open, loop_run_in_quotes d f _ _ _ hf.2 hf.1, loop_quote_close_end]
      simp
    | cons g gs =>
      rw [quotedLine_cons_cons]
      simp only [quoted, List.cons_append, List.append_assoc, List.nil_append]
      rw [loop_quote_open, loop_run_in_quotes d f _ _ _ hf.2 hf.1,
        loop_quote_close d d _ _ _ hd1, loop_delimiter d _ _ _ hd2 hd1,
        ih (List.cons_ne_nil _ _) (fun x hx => hfree x (List.mem_cons_of_mem _ hx))]
      simp

theorem loop_doubleQuotes (d : Char) (s field : Str) (fields : Row) (h : '\\' ∉ s) :
    parseLineLoop d (doubleQuotes s ++ ['"']) field fields true false
      = fields ++ [trim (field ++ s)] := by
  induction s generalizing field with
  | nil => simp [doubleQuotes, loop_quote_close_end]
  | cons c cs ih =>
    simp only [List.mem_cons, not_or] at h
    by_cases hc : c = '"'
    · subst hc
      simp only [doubleQuotes, if_true, List.cons_append]
      rw [loop_quote_pair, ih _ h.2]
      simp
    · simp only [doubleQuotes, if_neg hc, List.cons_append]
      rw [loop_plain_in_quotes d c _ _ _ (Ne.symm h.1) hc, ih _ h.2]
      simp

theorem loop_escapeAll (d : Char) (s rest field : Str) (fields : Row) (q : Bool) :
    parseLineLoop d (escapeAll s ++ rest) field fields q false
      = parseLineLoop d rest (field ++ s) fields q false := by
  induction s generalizing field with
  | nil => simp [escapeAll]
  | cons c cs ih =>
    simp only [escapeAll, List.cons_append]
    rw [loop_backslash, loop_escaped, ih]
    simp

/-! ## Lines without quotes and escapes -/

theorem splitOn_cons_delim (d : Char) (rest : Str) :
    (d :: rest).splitOn d = [] :: rest.splitOn d := by
  simp [List.splitOn, List.splitOnP_cons]

theorem splitOn_cons_other (d c : Char) (rest : Str) (hc : ¬c = d) :
    (c :: rest).splitOn d = (rest.splitOn d).modifyHead (List.cons c) := by
  simp [List.splitOn, List.splitOnP_cons, hc]

theorem splitOn_exists (d : Char) (line : Str) : ∃ p ps, line.splitOn d = p :: ps := by
  have h : line.splitOn d ≠ [] := List.splitOnP_ne_nil _ _
  cases hs : line.splitOn d with
  | nil => exact absurd hs h
  | cons p ps => exact ⟨p, ps, rfl⟩

theorem splitOn_length (d : Char) (line : Str) :
    (line.splitOn d).length = line.count d + 1 := by
  induction line with
  | nil => simp [List.splitOn, List.splitOnP_nil]
  | cons c rest ih =>
    by_cases hc : c = d
    · subst hc
      rw [splitOn_cons_delim, List.length_cons, ih, List.count_cons_self]
    · rw [splitOn_cons_other d c rest hc]
      obtain ⟨p, ps, hp⟩ := splitOn_exists d rest
      rw [hp] at ih ⊢
      rw [List.count_cons]
      simp only [List.modifyHead_cons, List.length_cons] at ih ⊢
      simp [hc, ih]

/-- On a line without quote and backslash the loop splits at the delimiter:
the pending field goes in front of the first piece. -/
theorem loop_plain_line (d : Char) (hd1 : d ≠ '"') (hd2 : d ≠ '\\') (line f : Str) (fs : Row)
    (h1 : '"' ∉ line) (h2 : '\\' ∉ line) :
    parseLineLoop d line f fs false false
      = fs ++ ((line.splitOn d).modifyHead (fun p => f ++ p)).map trim := by
  induction line generalizing f fs with
  | nil => simp [step_nil, List.splitOn, List.splitOnP_nil]
  | cons c rest ih =>
    simp only [List.mem_cons, not_or] at h1 h2
    have hc1 : ¬c = '\\' := fun h => h2.1 h.symm
    have hc2 : ¬c = '"' := fun h => h1.1 h.symm
    obtain ⟨p, ps, hp⟩ := splitOn_exists d rest
    by_cases hc : c = d
    · subst hc
      rw [step_delim c c rest f fs false false (by simp) hc1 hc2 (by simp), ih _ _ h1.2 h2.2,
        splitOn_cons_delim, hp]
      simp
    · rw [step_plain d c rest f fs false false (by simp) hc1 hc2 (by simp [hc]),
        ih _ _ h1.2 h2.2, splitOn_cons_other d c rest hc, hp]
      simp

theorem loop_trailing_delimiter (d : Char) (hd1 : d ≠ '"') (hd2 : d ≠ '\\') (line f : Str)
    (fs : Row) (h1 : '"' ∉ line) (h2 : '\\' ∉ line) :
    parseLineLoop d (line ++ [d]) f fs false false
      = parseLineLoop d line f fs false false ++ [[]] := by
  induction line generalizing f fs with
  | nil =>
    rw [List.nil_append, step_delim d d [] f fs false false (by simp) hd2 hd1 (by simp),
      step_nil, step_nil, trim_nil]
  | cons c rest ih =>
    simp only [List.mem_cons, not_or] at h1 h2
    have hc1 : ¬c = '\\' := fun h => h2.1 h.symm
    have hc2 : ¬c = '"' := fun h => h1.1 h.symm
    rw [List.cons_append]
    by_cases hc : c = d
    · subst hc
      rw [step_delim c c _ f fs false false (by simp) hc1 hc2 (by simp),
        step_delim c c _ f fs false false (by simp) hc1 hc2 (by simp), ih _ _ h1.2 h2.2]
    · rw [step_plain d c _ f fs false false (by simp) hc1 hc2 (by simp [hc]),
        step_plain d c _ f fs false false (by simp) hc1 hc2 (by simp [hc]), ih _ _ h1.2 h2.2]

/-! ## Characters appended to a line -/

/-- A closing quote appended to a line whose scan ends inside quotes, with no
escape pending, does not change the fields. -/
theorem loop_append_quote (d : Char) (line f : Str) (fs : Row) (q e : Bool)
    (hq : (parseLineExit d line f fs q e).2.2.1 = true)
    (he : (parseLineExit d line f fs q e).2.2.2 = false) :
    parseLineLoop d (line ++ ['"']) f fs q e = parseLineLoop d line f fs q e := by
  induction line, f, fs, q, e using parseLineLoop.induct d with
  | case1 f fs q e =>
    rw [exit_nil] at hq he
    simp only at hq he
    subst hq he
    rw [List.nil_append, loop_quote_close_end, step_nil]
  | case2 c rest f fs q ih =>
    rw [exit_esc] at hq he
    rw [List.cons_append, loop_escaped, loop_escaped, ih hq he]
  | case3 rest f fs q e hne ih =>
    rw [exit_bs _ _ _ _ _ _ hne] at hq he
    rw [List.cons_append, step_bs _ _ _ _ _ _ hne, step_bs _ _ _ _ _ _ hne, ih hq he]
  | case4 f fs q e hne _ ih =>
    rw [exit_quote_end _ _ _ _ _ hne] at hq he
    simp only at hq he
    have hq2 : q = false := by simpa using hq
    subst hq2 he
    rw [List.singleton_append, step_toggle d '"' [] f fs false false (by simp) (by simp),
      step_quote_end _ _ _ _ _ (by simp), step_quote_end _ _ _ _ _ (by simp), step_nil, step_nil]
  | case5 f fs q e hne c' rest' hp _ ih =>
    rw [exit_pair _ _ _ _ _ _ _ hne hp] at hq he
    rw [List.cons_append, List.cons_append, step_pair _ _ _ _ _ _ _ hne hp,
      step_pair _ _ _ _ _ _ _ hne hp, ih hq he]
  | case6 f fs q e hne c' rest' hp _ ih =>
    rw [exit_toggle _ _ _ _ _ _ _ hne hp] at hq he
    rw [List.cons_append, List.cons_append, step_toggle _ _ _ _ _ _ _ hne hp,
      step_toggle _ _ _ _ _ _ _ hne hp, ← List.cons_append, ih hq he]
  | case7 c rest f fs q e hne h1 h2 hd ih =>
    rw [exit_delim _ _ _ _ _ _ _ hne h1 h2 hd] at hq he
    rw [List.cons_append, step_delim _ _ _ _ _ _ _ hne h1 h2 hd,
      step_delim _ _ _ _ _ _ _ hne h1 h2 hd, ih hq he]
  | case8 c rest f fs q e hne h1 h2 hd ih =>
    rw [exit_plain _ _ _ _ _ _ _ hne h1 h2 hd] at hq he
    rw [List.cons_append, step_plain _ _ _ _ _ _ _ hne h1 h2 hd,
      step_plain _ _ _ _ _ _ _ hne h1 h2 hd, ih hq he]

/-- A backslash appended to a line whose scan ends with no escape pending does
not change the fields. -/
theorem loop_append_backslash (d : Char) (line f : Str) (fs : Row) (q e : Bool)
    (he : (parseLineExit d line f fs q e).2.2.2 = false) :
    parseLineLoop d (line ++ ['\\']) f fs q e = parseLineLoop d line f fs q e := by
  induction line, f, fs, q, e using parseLineLoop.induct d with
  | case1 f fs q e =>
    rw [exit_nil] at he
    simp only at he
    subst he
    rw [List.nil_append, step_bs _ _ _ _ _ _ (by simp), step_nil, step_nil]
  | case2 c rest f fs q ih =>
    rw [exit_esc] at he
    rw [List.cons_append, loop_escaped, loop_escaped, ih he]
  | case3 rest f fs q e hne ih =>
    rw [exit_bs _ _ _ _ _ _ hne] at he
    rw [List.cons_append, step_bs _ _ _ _ _ _ hne, step_bs _ _ _ _ _ _ hne, ih he]
  | case4 f fs q e hne _ ih =>
    rw [exit_quote_end _ _ _ _ _ hne] at he
    simp only at he
    subst he
    rw [List.singleton_append, step_toggle d '\\' [] f fs q false (by simp) (by simp),
      step_bs _ _ _ _ _ _ (by simp), step_quote_end _ _ _ _ _ (by simp), step_nil, step_nil]
  | case5 f fs q e hne c' rest' hp _ ih =>
    rw [exit_pair _ _ _ _ _ _ _ hne hp] at he
    rw [List.cons_append, List.cons_append, step_pair _ _ _ _ _ _ _ hne hp,
      step_pair _ _ _ _ _ _ _ hne hp, ih he]
  | case6 f fs q e hne c' rest' hp _ ih =>
    rw [exit_toggle _ _ _ _ _ _ _ hne hp] at he
    rw [List.cons_append, List.cons_append, step_toggle _ _ _ _ _ _ _ hne hp,
      step_toggle _ _ _ _ _ _ _ hne hp, ← List.cons_append, ih he]
  | case7 c rest f fs q e hne h1 h2 hd ih =>
    rw [exit_delim _ _ _ _ _ _ _ hne h1 h2 hd] at he
    rw [List.cons_append, step_delim _ _ _ _ _ _ _ hne h1 h2 hd,
      step_delim _ _ _ _ _ _ _ hne h1 h2 hd, ih he]
  | case8 c rest f fs q e hne h1 h2 hd ih =>
    rw [exit_plain _ _ _ _ _ _ _ hne h1 h2 hd] at he
    rw [List.cons_append, step_plain _ _ _ _ _ _ _ hne h1 h2 hd,
      step_plain _ _ _ _ _ _ _ hne h1 h2 hd, ih he]

/-! ## Whitespace around a line -/

theorem ws_not_special (d c : Char) (hd : isWhitespace d = false)
    (hc : isWhitespace c = true) : ¬c = '\\' ∧ ¬c = '"' ∧ ¬c = d := by
  refine ⟨?_, ?_, ?_⟩
  · intro h
    rw [h] at hc
    exact absurd hc (by decide)
  · intro h
    rw [h] at hc
    exact absurd hc (by decide)
  · intro h
    rw [h, hd] at hc
    exact Bool.noConfusion hc

/-- With a delimiter that is not whitespace, a run of whitespace is copied to
the field, in or out of quotes. -/
theorem loop_ws_run (d : Char) (hd : isWhitespace d = false) (w rest f : Str) (fs : Row)
    (q : Bool) (hw : ∀ c ∈ w, isWhitespace c = true) :
    parseLineLoop d (w ++ rest) f fs q false = parseLineLoop d rest (f ++ w) fs q false := by
  induction w generalizing f with
  | nil => simp
  | cons c cs ih =>
    obtain ⟨h1, h2, h3⟩ := ws_not_special d c hd (hw c (List.mem_cons_self _ _))
    rw [List.cons_append, step_plain d c _ f fs q false (by simp) h1 h2 (by simp [h3]),
      ih _ (fun x hx => hw x (List.mem_cons_of_mem _ hx))]
    simp

theorem loop_ws_only (d : Char) (hd : isWhitespace d = false) (w f : Str) (fs : Row)
    (q e : Bool) (hw : ∀ c ∈ w, isWhitespace c = true) :
    parseLineLoop d w f fs q e = fs ++ [trim f] := by
  cases e with
  | false =>
    have h := loop_ws_run d hd w [] f fs q hw
    rw [List.append_nil] at h
    rw [h, step_nil, trim_ws_append_right _ _ hw]
  | true =>
    cases w with
    | nil => rw [step_nil]
    | cons c cs =>
      have h := loop_ws_run d hd cs [] (f ++ [c]) fs q
        (fun x hx => hw x (List.mem_cons_of_mem _ hx))
      rw [List.append_nil] at h
      rw [loop_escaped, h, step_nil, List.append_assoc, trim_ws_append_right _ _ (by simpa using hw)]

/-- With a delimiter that is not whitespace, whitespace after a line does not
change its fields. -/
theorem loop_append_ws (d : Char) (hd : isWhitespace d = false) (w : Str)
    (hw : ∀ c ∈ w, isWhitespace c = true) (line f : Str) (fs : Row) (q e : Bool) :
    parseLineLoop d (line ++ w) f fs q e = parseLineLoop d line f fs q e := by
  induction line, f, fs, q, e using parseLineLoop.induct d with
  | case1 f fs q e => rw [List.nil_append, loop_ws_only d hd w f fs q e hw, step_nil]
  | case2 c rest f fs q ih => rw [List.cons_append, loop_escaped, loop_escaped, ih]
  | case3 rest f fs q e hne ih =>
    rw [List.cons_append, step_bs _ _ _ _ _ _ hne, step_bs _ _ _ _ _ _ hne, ih]
  | case4 f fs q e hne _ ih =>
    cases w with
    | nil => rw [List.append_nil]
    | cons c cs =>
      obtain ⟨_, h2, _⟩ := ws_not_special d c hd (hw c (List.mem_cons_self _ _))
      rw [List.singleton_append, step_toggle d c cs f fs q e hne (by simp [h2]),
        loop_ws_only d hd (c :: cs) f fs (!q) e hw, step_quote_end _ _ _ _ _ hne, step_nil]
  | case5 f fs q e hne c' rest' hp _ ih =>
    rw [List.cons_append, List.cons_append, step_pair _ _ _ _ _ _ _ hne hp,
      step_pair _ _ _ _ _ _ _ hne hp, ih]
  | case6 f fs q e hne c' rest' hp _ ih =>
    rw [List.cons_append, List.cons_append, step_toggle _ _ _ _ _ _ _ hne hp,
      step_toggle _ _ _ _ _ _ _ hne hp, ← List.cons_append, ih]
  | case7 c rest f fs q e hne h1 h2 hdel ih =>
    rw [List.cons_append, step_delim _ _ _ _ _ _ _ hne h1 h2 hdel,
      step_delim _ _ _ _ _ _ _ hne h1 h2 hdel, ih]
  | case8 c rest f fs q e hne h1 h2 hdel ih =>
    rw [List.cons_append, step_plain _ _ _ _ _ _ _ hne h1 h2 hdel,
      step_plain _ _ _ _ _ _ _ hne h1 h2 hdel, ih]

/-- Whitespace at the start of the pending field does not change the fields. -/
theorem loop_field_ws_prefix (d : Char) (w : Str) (hw : ∀ c ∈ w, isWhitespace c = true)
    (line f : Str) (fs : Row) (q e : Bool) :
    parseLineLoop d line (w ++ f) fs q e = parseLineLoop d line f fs q e := by
  induction line, f, fs, q, e using parseLineLoop.induct d with
  | case1 f fs q e => rw [step_nil, step_nil, trim_ws_append_left _ _ hw]
  | case2 c rest f fs q ih => rw [loop_escaped, loop_escaped, List.append_assoc, ih]
  | case3 rest f fs q e hne ih => rw [step_bs _ _ _ _ _ _ hne, step_bs _ _ _ _ _ _ hne, ih]
  | case4 f fs q e hne _ ih =>
    rw [step_quote_end _ _ _ _ _ hne, step_quote_end _ _ _ _ _ hne, ih]
  | case5 f fs q e hne c' rest' hp _ ih =>
    rw [step_pair _ _ _ _ _ _ _ hne hp, step_pair _ _ _ _ _ _ _ hne hp, List.append_assoc, ih]
  | case6 f fs q e hne c' rest' hp _ ih =>
    rw [step_toggle _ _ _ _ _ _ _ hne hp, step_toggle _ _ _ _ _ _ _ hne hp, ih]
  | case7 c rest f fs q e hne h1 h2 hdel ih =>
    rw [step_delim _ _ _ _ _ _ _ hne h1 h2 hdel, step_delim _ _ _ _ _ _ _ hne h1 h2 hdel,
      trim_ws_append_left _ _ hw]
  | case8 c rest f fs q e hne h1 h2 hdel ih =>
    rw [step_plain _ _ _ _ _ _ _ hne h1 h2 hdel, step_plain _ _ _ _ _ _ _ hne h1 h2 hdel,
      List.append_assoc, ih]

theorem parseLine_trim (d : Char) (hd : isWhitespace d = false) (l : Str) :
    parseLine d (trim l) = parseLine d l := by
  obtain ⟨pre, suf, hl, hpre, hsuf, _⟩ := trim_decomp l
  have key : parseLine d (pre ++ (trim l ++ suf)) = parseLine d (trim l) := by
    unfold parseLine
    rw [loop_ws_run d hd pre _ [] [] false hpre, loop_append_ws d hd suf hsuf]
    have h := loop_field_ws_prefix d pre hpre (trim l) [] [] false false
    rw [List.append_nil] at h
    rw [List.nil_append, h]
  rw [← hl] at key
  exact key.symm

theorem parse_rows_subset (d : Char) (h s : Bool) (hdrs : Row) (text : Str) :
    ∀ row ∈ ((CSVParser.mk d h s hdrs).parse text).1, row ∈ keptRows d s (getLines text) := by
  cases h with
  | false =>
    rw [parse_no_header]
    exact fun row hrow => hrow
  | true =>
    rw [parse_header]
    cases keptRows d s (getLines text) with
    | nil => simp
    | cons r rs => exact fun row hrow => List.mem_cons_of_mem _ hrow

/-! ## Index reads stay in bounds -/

theorem drop_cons_facts (l : Str) (i : Nat) (c : Char) (rest : Str)
    (h : l.drop i = c :: rest) : l[i]? = some c ∧ l.drop (i + 1) = rest ∧ i < l.length := by
  refine ⟨?_, ?_, ?_⟩
  · rw [← List.head?_drop, h]
    rfl
  · rw [← List.tail_drop, h]
    rfl
  · by_contra hlt
    rw [List.drop_eq_nil_of_le (by omega)] at h
    exact List.noConfusion h

/-- With enough iterations the index loop never reads outside the line and
returns what the loop over the remaining characters returns. -/
theorem parseLineAt_eq (d : Char) (line : Str) (fuel i : Nat) (f : Str) (fs : Row)
    (q e : Bool) (hfuel : line.length - i ≤ fuel) :
    parseLineAt d line fuel i f fs q e = some (parseLineLoop d (line.drop i) f fs q e) := by
  induction fuel generalizing i f fs q e with
  | zero =>
    have hi : line.length ≤ i := by omega
    rw [parseLineAt, if_neg (by omega), List.drop_eq_nil_of_le hi, step_nil]
  | succ fuel ih =>
    rw [parseLineAt]
    cases hdrop : line.drop i with
    | nil =>
      have hi : line.length ≤ i := List.drop_eq_nil_iff.1 hdrop
      rw [if_neg (by omega), step_nil]
    | cons c rest =>
      obtain ⟨hget, hrest, hlt⟩ := drop_cons_facts line i c rest hdrop
      rw [if_pos hlt, List.get?_eq_getElem?, hget]
      simp only
      have ih1 := fun f fs q e => ih (i + 1) f fs q e (by omega)
      rw [hrest] at ih1
      by_cases he : e = true
      · subst he
        rw [if_pos rfl, ih1, loop_escaped]
      · rw [if_neg he]
        by_cases hb : c = '\\'
        · subst hb
          rw [if_pos rfl, ih1, step_bs _ _ _ _ _ _ he]
        · rw [if_neg hb]
          by_cases hq : c = '"'
          · subst hq
            rw [if_pos rfl]
            cases hrest2 : rest with
            | nil =>
              have hlen : line.length ≤ i + 1 := by
                rw [hrest2] at hrest
                exact List.drop_eq_nil_iff.1 hrest
              have hcond : ¬(q && decide (i + 1 < line.length)) = true := by
                simp only [Bool.and_eq_true, decide_eq_true_eq, not_and]
                intro _
                omega
              rw [if_neg hcond, ih1, hrest2, step_quote_end _ _ _ _ _ he]
            | cons c2 rest2 =>
              rw [hrest2] at hrest ih1
              obtain ⟨hget2, hrest3, hlt2⟩ := drop_cons_facts line (i + 1) c2 rest2 hrest
              have ih2 := fun f fs q e => ih (i + 2) f fs q e (by omega)
              rw [hrest3] at ih2
              by_cases hqt : q = true
              · subst hqt
                rw [if_pos (by simp [hlt2]), List.get?_eq_getElem?, hget2]
                simp only
                by_cases hc2 : c2 = '"'
                · subst hc2
                  rw [if_pos (by simp), ih2, step_pair _ _ _ _ _ _ _ he (by simp)]
                · rw [if_neg (by simpa using hc2), ih1,
                    step_toggle _ _ _ _ _ _ _ he (by simpa using hc2)]
              · rw [if_neg (by simp [hqt]), ih1, step_toggle _ _ _ _ _ _ _ he (by simp [hqt])]
          · rw [if_neg hq]
            by_cases hdel : (c == d && !q) = true
            · rw [if_pos hdel, ih1, step_delim _ _ _ _ _ _ _ he hb hq hdel]
            · rw [if_neg hdel, ih1, step_plain _ _ _ _ _ _ _ he hb hq hdel]

theorem parseLineChecked_eq (d : Char) (line : Str) :
    parseLineChecked d line = some (parseLine d line) := by
  unfold parseLineChecked parseLine
  rw [parseLineAt_eq d line line.length 0 [] [] false false (by omega), List.drop_zero]

theorem objLoopChecked_eq (headers row : Row) (k i : Nat)
    (h : i + k ≤ min headers.length row.length) (obj : Record) :
    objLoopChecked headers row k i obj = some (objLoop headers row k i h obj) := by
  induction k generalizing i obj with
  | zero => rfl
  | succ k ih =>
    have hi1 : i < headers.length := by omega
    have hi2 : i < row.length := by omega
    rw [objLoopChecked, List.getElem?_eq_getElem hi1, List.getElem?_eq_getElem hi2]
    simp only
    rw [ih (i + 1) (by omega)]
    rfl

theorem buildObjChecked_eq (headers row : Row) :
    buildObjChecked headers row = some (buildObj headers row) :=
  objLoopChecked_eq headers row _ 0 (by omega) []

theorem parseLoopChecked_eq (lines : List Str) (p : CSVParser) (firstLine : Bool)
    (result : List Row) :
    parseLoopChecked lines p firstLine result = some (parseLoop lines p firstLine result) := by
  induction lines generalizing p firstLine result with
  | nil => rfl
  | cons l ls ih =>
    rw [parseLoopChecked, parseLoop, parseLineChecked_eq]
    simp only
    by_cases hs : (p.skipEmptyLines_ && l.isEmpty) = true
    · rw [if_pos hs, if_pos hs, ih]
    · rw [if_neg hs, if_neg hs]
      by_cases hf : (firstLine && p.hasHeader_) = true
      · rw [if_pos hf, if_pos hf, ih]
      · rw [if_neg hf, if_neg hf, ih]

theorem recordsChecked_eq (headers : Row) (rows : List Row) :
    recordsChecked headers rows = some (rows.map (buildObj headers)) := by
  induction rows with
  | nil => rfl
  | cons r rs ih =>
    rw [recordsChecked, buildObjChecked_eq, ih]
    rfl

theorem parseChecked_eq (p : CSVParser) (text : Str) :
    p.parseChecked text = some (p.parse text) :=
  parseLoopChecked_eq _ p true []

theorem parseToObjectsChecked_eq (p : CSVParser) (text : Str) :
    p.parseToObjectsChecked text = some (p.parseToObjects text) := by
  unfold CSVParser.parseToObjectsChecked CSVParser.parseToObjects
  by_cases hh : (!p.hasHeader_) = true
  · rw [if_pos hh, if_pos hh]
  · rw [if_neg hh, if_neg hh, parseChecked_eq]
    simp only
    rw [recordsChecked_eq]

/-! ## Trimmed fields -/

theorem parseLine_trimmed (d : Char) (line : Str) :
    ∀ x ∈ parseLine d line, isTrimmed x = true :=
  parseLineLoop_trimmed d line [] [] false false (by simp)

theorem keptRows_trimmed (d : Char) (s : Bool) (lines : List Str) :
    ∀ row ∈ keptRows d s lines, ∀ x ∈ row, isTrimmed x = true := by
  intro row hrow
  obtain ⟨l, _, hl⟩ := List.mem_map.1 hrow
  rw [← hl]
  exact parseLine_trimmed d (trim l)

/-- The rows of `parse` are trimmed, and its headers stay trimmed. -/
theorem parse_trimmed (d : Char) (h s : Bool) (hdrs : Row) (text : Str)
    (hh : ∀ x ∈ hdrs, isTrimmed x = true) :
    (∀ row ∈ ((CSVParser.mk d h s hdrs).parse text).1, ∀ x ∈ row, isTrimmed x = true) ∧
      ∃ hdrs2, ((CSVParser.mk d h s hdrs).parse text).2 = CSVParser.mk d h s hdrs2 ∧
        ∀ x ∈ hdrs2, isTrimmed x = true := by
  have hk := keptRows_trimmed d s (getLines text)
  cases h with
  | false =>
    rw [parse_no_header]
    exact ⟨hk, hdrs, rfl, hh⟩
  | true =>
    rw [parse_header]
    cases hrows : keptRows d s (getLines text) with
    | nil => exact ⟨by simp, hdrs, rfl, hh⟩
    | cons r rs =>
      rw [hrows] at hk
      exact ⟨fun row hrow => hk row (List.mem_cons_of_mem _ hrow), r, rfl,
        hk r (List.mem_cons_self _ _)⟩

theorem call_trimmed (d : Char) (h s : Bool) (hdrs : Row) (c : Call)
    (hh : ∀ x ∈ hdrs, isTrimmed x = true) :
    ∃ hdrs2, (CSVParser.mk d h s hdrs).call c = CSVParser.mk d h s hdrs2 ∧
      ∀ x ∈ hdrs2, isTrimmed x = true := by
  cases c with
  | parse text => exact (parse_trimmed d h s hdrs text hh).2
  | parseToObjects text =>
    cases h with
    | false => exact ⟨hdrs, by simp [CSVParser.call, CSVParser.parseToObjects], hh⟩
    | true =>
      obtain ⟨hdrs2, h1, h2⟩ := (parse_trimmed d true s hdrs text hh).2
      exact ⟨hdrs2, by simp [CSVParser.call, CSVParser.parseToObjects, h1], h2⟩

/-- Every state that calls can produce keeps the config and has trimmed
headers. -/
theorem run_trimmed (d : Char) (h s : Bool) (calls : List Call) (hdrs : Row)
    (hh : ∀ x ∈ hdrs, isTrimmed x = true) :
    ∃ hdrs2, (CSVParser.mk d h s hdrs).run calls = CSVParser.mk d h s hdrs2 ∧
      ∀ x ∈ hdrs2, isTrimmed x = true := by
  induction calls generalizing hdrs with
  | nil => exact ⟨hdrs, rfl, hh⟩
  | cons c cs ih =>
    obtain ⟨hdrs1, h1, h2⟩ := call_trimmed d h s hdrs c hh
    obtain ⟨hdrs2, h3, h4⟩ := ih hdrs1 h2
    refine ⟨hdrs2, ?_, h4⟩
    unfold CSVParser.run at h3 ⊢
    rw [List.foldl_cons, h1, h3]

theorem mem_assign (m : Record) (k v : Str) (kv : Str × Str)
    (h : kv ∈ Record.assign m k v) : kv = (k, v) ∨ kv ∈ m := by
  induction m with
  | nil =>
    left
    simpa [Record.assign] using h
  | cons e m ih =>
    obtain ⟨k0, v0⟩ := e
    unfold Record.assign at h
    by_cases h1 : k = k0
    · rw [if_pos h1] at h
      rcases List.mem_cons.1 h with h2 | h2
      · left
        rw [h2, h1]
      · right
        exact List.mem_cons_of_mem _ h2
    · rw [if_neg h1] at h
      by_cases h3 : k < k0
      · rw [if_pos h3] at h
        rcases List.mem_cons.1 h with h2 | h2
        · exact Or.inl h2
        · exact Or.inr h2
      · rw [if_neg h3] at h
        rcases List.mem_cons.1 h with h2 | h2
        · right
          rw [h2]
          exact List.mem_cons_self _ _
        · rcases ih h2 with h4 | h4
          · exact Or.inl h4
          · exact Or.inr (List.mem_cons_of_mem _ h4)

theorem mem_assignAll (ps : List (Str × Str)) (m : Record) (kv : Str × Str)
    (h : kv ∈ m.assignAll ps) : kv ∈ m ∨ kv ∈ ps := by
  induction ps generalizing m with
  | nil => exact Or.inl h
  | cons e ps ih =>
    unfold Record.assignAll at ih h
    rw [List.foldl_cons] at h
    rcases ih _ h with h1 | h1
    · rcases mem_assign m e.1 e.2 kv h1 with h2 | h2
      · right
        rw [h2]
        exact List.mem_cons_self _ _
      · exact Or.inl h2
    · exact Or.inr (List.mem_cons_of_mem _ h1)

/-- Every value of the record built for a row is a field of the row. -/
theorem buildObj_values (headers row : Row) (kv : Str × Str)
    (h : kv ∈ buildObj headers row) : kv.2 ∈ row := by
  rw [buildObj_eq_insertPairs, insertPairs_eq_assignAll] at h
  rcases mem_assignAll _ _ _ h with h1 | h1
  · simp at h1
  · obtain ⟨j, hj, hjk⟩ := List.mem_map.1 h1
    have hj2 : j < min headers.length row.length := List.mem_range.1 hj
    have hjr : j < row.length := lt_of_lt_of_le hj2 (Nat.min_le_right _ _)
    rw [← hjk, List.getD_eq_getElem _ _ hjr]
    exact List.getElem_mem hjr

/-! ## Claims -/

/-- C1: on a fresh parser, with R0 the rows returned when `hasHeader` is
false: if R0 is empty, then with `hasHeader` true no rows are returned and the
headers stay empty; if R0 is `r :: rs`, then with `hasHeader` true the rows
are exactly `rs` and `getHeaders` afterwards returns exactly `r`. -/
theorem C1_header_is_first_kept_row (d : Char) (s : Bool) (text : Str) :
    match ((CSVParser.new d false s).parse text).1 with
    | [] =>
      ((CSVParser.new d true s).parse text).1 = [] ∧
        ((CSVParser.new d true s).parse text).2.getHeaders = []
    | r :: rs =>
      ((CSVParser.new d true s).parse text).1 = rs ∧
        ((CSVParser.new d true s).parse text).2.getHeaders = r := by
  simp only [CSVParser.new, parse_no_header, parse_header, CSVParser.getHeaders]
  cases keptRows d s (getLines text) <;> simp

/-- C2: with `hasHeader` true, `parseToObjects text` returns one record per
row of `parse text`, in the same order, the record of a row being the map
built by inserting `headers[i] -> row[i]` for `i` below the shorter length.
When the header names are pairwise distinct, the record of every row has
exactly `min(len(headers), len(row))` keys, maps `headers[i]` to `row[i]` for
each such `i`, has no entry for a header at an index from `len(row)` on, and
every entry it has comes from such an `i` (so fields beyond the headers are
dropped).  Headers `[a, b, c]` and row `[1, 2]` give `{a: 1, b: 2}` with no
key `c`. -/
theorem C2_records_pair_headers_with_fields (d : Char) (s : Bool) (hdrs : Row) (text : Str) :
    ((CSVParser.mk d true s hdrs).parseToObjects text).1
        = ((CSVParser.mk d true s hdrs).parse text).1.map
            (insertPairs ((CSVParser.mk d true s hdrs).parse text).2.getHeaders) ∧
      (((CSVParser.mk d true s hdrs).parse text).2.getHeaders.Nodup →
        ∀ row ∈ ((CSVParser.mk d true s hdrs).parse text).1,
          (insertPairs ((CSVParser.mk d true s hdrs).parse text).2.getHeaders row).keys.Nodup ∧
            (insertPairs ((CSVParser.mk d true s hdrs).parse text).2.getHeaders row).keys.length
              = min ((CSVParser.mk d true s hdrs).parse text).2.getHeaders.length row.length ∧
            (∀ (i : Nat)
                (hi : i < ((CSVParser.mk d true s hdrs).parse text).2.getHeaders.length)
                (hr : i < row.length),
              (insertPairs ((CSVParser.mk d true s hdrs).parse text).2.getHeaders row).find
                  (((CSVParser.mk d true s hdrs).parse text).2.getHeaders.get ⟨i, hi⟩)
                = some (row.get ⟨i, hr⟩)) ∧
            (∀ (i : Nat)
                (hi : i < ((CSVParser.mk d true s hdrs).parse text).2.getHeaders.length),
              row.length ≤ i →
              (insertPairs ((CSVParser.mk d true s hdrs).parse text).2.getHeaders row).find
                  (((CSVParser.mk d true s hdrs).parse text).2.getHeaders.get ⟨i, hi⟩)
                = none) ∧
            (∀ k v : Str,
              (insertPairs ((CSVParser.mk d true s hdrs).parse text).2.getHeaders row).find k
                  = some v →
              ∃ (i : Nat)
                (hi : i < ((CSVParser.mk d true s hdrs).parse text).2.getHeaders.length)
                (hr : i < row.length),
                ((CSVParser.mk d true s hdrs).parse text).2.getHeaders.get ⟨i, hi⟩ = k ∧
                  row.get ⟨i, hr⟩ = v)) ∧
      buildObj ["a".toList, "b".toList, "c".toList] ["1".toList, "2".toList]
        = [("a".toList, "1".toList), ("b".toList, "2".toList)] ∧
      (buildObj ["a".toList, "b".toList, "c".toList] ["1".toList, "2".toList]).find "c".toList
        = none := by
  refine ⟨parseToObjects_header d s hdrs text, ?_, by decide, by decide⟩
  intro hnd row _
  refine ⟨insertPairs_keys_nodup _ row hnd, ?_, ?_, ?_, ?_⟩
  · rw [Record.keys, List.length_map]
    exact insertPairs_length _ row hnd
  · exact fun i hi hr => insertPairs_find _ row hnd i hi hr
  · exact fun i hi hr => insertPairs_find_none _ row hnd i hi hr
  · exact fun k v h => insertPairs_sound _ row k v h

/-- C2 at the text `a,b,c` / `1,2`: the only record is `{a: 1, b: 2}`, with
two keys and none for `c`. -/
theorem C2_records_witness :
    ((CSVParser.new ',' true true).parseToObjects "a,b,c\n1,2".toList).1
        = [[("a".toList, "1".toList), ("b".toList, "2".toList)]] ∧
      (insertPairs ((CSVParser.new ',' true true).parse "a,b,c\n1,2".toList).2.getHeaders
          ["1".toList, "2".toList]).keys.length = 2 ∧
      (insertPairs ((CSVParser.new ',' true true).parse "a,b,c\n1,2".toList).2.getHeaders
          ["1".toList, "2".toList]).find "c".toList = none :=
  ⟨by decide,
    ((C2_records_pair_headers_with_fields ',' true [] "a,b,c\n1,2".toList).2.1
      (by decide) ["1".toList, "2".toList] (by decide)).2.1,
    ((C2_records_pair_headers_with_fields ',' true [] "a,b,c\n1,2".toList).2.1
      (by decide) ["1".toList, "2".toList] (by decide)).2.2.2.1 2 (by decide) (by decide)⟩

/-- C3 (as stated, refuted): for the text `a,a` / `1,2` the header line
tokenizes to 2 names and the data row to 2 fields, yet the record has one key
only, and the value under the first header name is the second field. -/
theorem C3_repeated_header_name :
    ((CSVParser.new ',' true true).parseToObjects "a,a\n1,2".toList).2.getHeaders
        = ["a".toList, "a".toList] ∧
      ((CSVParser.new ',' true true).parse "a,a\n1,2".toList).1 = [["1".toList, "2".toList]] ∧
      ((CSVParser.new ',' true true).parseToObjects "a,a\n1,2".toList).1
        = [[("a".toList, "2".toList)]] ∧
      (Record.keys [("a".toList, "2".toList)]).length ≠ 2 ∧
      Record.find [("a".toList, "2".toList)] "a".toList ≠ some "1".toList := by
  decide

/-- C3 (amended): when the header line of the text tokenizes to N pairwise
distinct names, the record that `parseToObjects` produces for a data row that
tokenizes to N fields (the record at the position of that row) has exactly N
keys, and the value under the i-th header name is the i-th field of the row. -/
theorem C3_record_of_full_row (d : Char) (s : Bool) (hdrs : Row) (text : Str)
    (j : Nat) (row : Row) (record : Record)
    (hrow : ((CSVParser.mk d true s hdrs).parse text).1[j]? = some row)
    (hrec : ((CSVParser.mk d true s hdrs).parseToObjects text).1[j]? = some record)
    (hnd : ((CSVParser.mk d true s hdrs).parseToObjects text).2.getHeaders.Nodup)
    (hlen : row.length
      = ((CSVParser.mk d true s hdrs).parseToObjects text).2.getHeaders.length) :
    record.keys.Nodup ∧
      record.keys.length
        = ((CSVParser.mk d true s hdrs).parseToObjects text).2.getHeaders.length ∧
      ∀ (i : Nat)
        (hi : i < ((CSVParser.mk d true s hdrs).parseToObjects text).2.getHeaders.length)
        (hr : i < row.length),
        record.find
            (((CSVParser.mk d true s hdrs).parseToObjects text).2.getHeaders.get ⟨i, hi⟩)
          = some (row.get ⟨i, hr⟩) := by
  rw [parseToObjects_header, List.getElem?_map, hrow] at hrec
  have hrec' : insertPairs ((CSVParser.mk d true s hdrs).parse text).2.getHeaders row
      = record := Option.some.inj hrec
  rw [parseToObjects_header_state] at hnd hlen ⊢
  subst hrec'
  refine ⟨insertPairs_keys_nodup _ row hnd, ?_, ?_⟩
  · rw [Record.keys, List.length_map, insertPairs_length _ row hnd, hlen, Nat.min_self]
  · exact fun i hi hr => insertPairs_find _ row hnd i hi hr

/-- C3 at the text `a,b` / `1,2`: the record of the only row has the two keys
`a` and `b`, with `a -> 1` and `b -> 2`. -/
theorem C3_record_of_full_row_witness :
    (Record.keys [("a".toList, "1".toList), ("b".toList, "2".toList)]).Nodup ∧
      (Record.keys [("a".toList, "1".toList), ("b".toList, "2".toList)]).length
        = ((CSVParser.mk ',' true true []).parseToObjects "a,b\n1,2".toList).2.getHeaders.length ∧
      ∀ (i : Nat)
        (hi : i < ((CSVParser.mk ',' true true []).parseToObjects
          "a,b\n1,2".toList).2.getHeaders.length)
        (hr : i < ["1".toList, "2".toList].length),
        Record.find [("a".toList, "1".toList), ("b".toList, "2".toList)]
            (((CSVParser.mk ',' true true []).parseToObjects
              "a,b\n1,2".toList).2.getHeaders.get ⟨i, hi⟩)
          = some (["1".toList, "2".toList].get ⟨i, hr⟩) :=
  C3_record_of_full_row ',' true [] "a,b\n1,2".toList 0 ["1".toList, "2".toList]
    [("a".toList, "1".toList), ("b".toList, "2".toList)]
    (by decide) (by decide) (by decide) (by decide)

/-- C4: with `hasHeader` false, `parseToObjects` returns the empty sequence
for every delimiter, `skipEmptyLines` value, prior headers and text, and the
object (its headers included) is left exactly as it was. -/
theorem C4_parseToObjects_without_header (d : Char) (s : Bool) (hdrs : Row) (text : Str) :
    ((CSVParser.mk d false s hdrs).parseToObjects text).1 = [] ∧
      ((CSVParser.mk d false s hdrs).parseToObjects text).2 = CSVParser.mk d false s hdrs ∧
      ((CSVParser.mk d false s hdrs).parseToObjects text).2.getHeaders = hdrs := by
  simp [CSVParser.parseToObjects, CSVParser.getHeaders]

/-- C5: for every config, `parse` of the empty text returns no rows and, on a
freshly constructed parser, `getHeaders` is empty afterwards; with `hasHeader`
false, `getHeaders` is empty after any sequence of `parse` and
`parseToObjects` calls on any texts. -/
theorem C5_empty_text_and_no_header (d : Char) (h s : Bool) :
    (∀ hdrs : Row, ((CSVParser.mk d h s hdrs).parse []).1 = []) ∧
      ((CSVParser.new d h s).parse []).2.getHeaders = [] ∧
      ∀ calls : List Call, ((CSVParser.new d false s).run calls).getHeaders = [] := by
  refine ⟨fun hdrs => ?_, ?_, fun calls => ?_⟩
  · simp [CSVParser.parse, getLines, parseLoop]
  · simp [CSVParser.parse, getLines, parseLoop, CSVParser.new, CSVParser.getHeaders]
  · simp [CSVParser.new, run_no_header, CSVParser.getHeaders]

/-- C6 (as stated, refuted): a parser with `hasHeader` true that has parsed
the text `a,b` still reports the headers `[a, b]` after a later `parse` of the
empty text, instead of the empty sequence. -/
theorem C6_stale_headers_survive :
    (((CSVParser.new ',' true true).parse "a,b".toList).2.parse []).2.getHeaders
        = ["a".toList, "b".toList] ∧
      (((CSVParser.new ',' true true).parse "a,b".toList).2.parse []).2.getHeaders ≠ [] := by
  decide

/-- C6 (amended): on a parser with `hasHeader` true and any prior headers,
after `parse text` the value of `getHeaders` is the tokenized (trimmed) first
line of the text that is not skipped when there is such a line, and the
headers held before the call otherwise. -/
theorem C6_headers_after_parse (d : Char) (s : Bool) (hdrs : Row) (text : Str) :
    ((CSVParser.mk d true s hdrs).parse text).2.getHeaders
      = match (getLines text).find? (fun l => !(s && l.isEmpty)) with
        | some l => parseLine d (trim l)
        | none => hdrs := by
  rw [parse_header]
  induction getLines text with
  | nil => simp [keptRows, CSVParser.getHeaders]
  | cons l ls ih =>
    rw [keptRows_cons, List.find?_cons]
    by_cases hs : (s && l.isEmpty) = true
    · rw [if_pos hs]
      simpa [hs] using ih
    · rw [if_neg hs]
      simp [hs, CSVParser.getHeaders]

/-- C7: the rows of `parse` and the records of `parseToObjects` depend on the
config and the text only: they are the same for any two prior values of the
headers, the config is unchanged by either call, and repeating the call on the
same object with the same text returns the same output. -/
theorem C7_output_independent_of_prior_headers (d : Char) (h s : Bool)
    (hdrs1 hdrs2 : Row) (text : Str) :
    ((CSVParser.mk d h s hdrs1).parse text).1 = ((CSVParser.mk d h s hdrs2).parse text).1 ∧
      ((CSVParser.mk d h s hdrs1).parseToObjects text).1
        = ((CSVParser.mk d h s hdrs2).parseToObjects text).1 ∧
      (((CSVParser.mk d h s hdrs1).parse text).2.delimiter_ = d ∧
        ((CSVParser.mk d h s hdrs1).parse text).2.hasHeader_ = h ∧
        ((CSVParser.mk d h s hdrs1).parse text).2.skipEmptyLines_ = s) ∧
      (((CSVParser.mk d h s hdrs1).parseToObjects text).2.delimiter_ = d ∧
        ((CSVParser.mk d h s hdrs1).parseToObjects text).2.hasHeader_ = h ∧
        ((CSVParser.mk d h s hdrs1).parseToObjects text).2.skipEmptyLines_ = s) ∧
      (((CSVParser.mk d h s hdrs1).parse text).2.parse text).1
        = ((CSVParser.mk d h s hdrs1).parse text).1 ∧
      (((CSVParser.mk d h s hdrs1).parseToObjects text).2.parseToObjects text).1
        = ((CSVParser.mk d h s hdrs1).parseToObjects text).1 := by
  cases h with
  | false => simp [CSVParser.parseToObjects, parse_no_header]
  | true =>
    simp only [CSVParser.parseToObjects, parse_header]
    cases hk : keptRows d s (getLines text) with
    | nil => simp [parse_header, hk]
    | cons r rs => simp [parse_header, hk]

/-- C8: inside quotes the delimiter is literal.  For every delimiter other
than the quote and the backslash and every non-empty list of strings free of
quote, backslash and newline (the delimiter may occur in them), tokenizing the
line made of the strings, each wrapped in double quotes, joined with the
delimiter yields exactly the trimmed strings.  The line `a,"b,c",d` with
delimiter `,` yields `[a, b,c, d]`. -/
theorem C8_quoted_delimiter_is_literal (d : Char) (hd1 : d ≠ '"') (hd2 : d ≠ '\\')
    (fs : List Str) (hne : fs ≠ [])
    (hfree : ∀ f ∈ fs, '"' ∉ f ∧ '\\' ∉ f ∧ '\n' ∉ f) :
    parseLine d (quotedLine d fs) = fs.map trim ∧
      parseLine ',' "a,\"b,c\",d".toList = ["a".toList, "b,c".toList, "d".toList] := by
  refine ⟨?_, by decide⟩
  unfold parseLine
  rw [loop_quotedLine d hd1 hd2 fs hne (fun f hf => ⟨(hfree f hf).1, (hfree f hf).2.1⟩)]
  simp

/-- C8 at the quoted line `"x,y"," z "` with delimiter `,`: the fields are
`x,y` and `z`. -/
theorem C8_quoted_delimiter_witness :
    parseLine ',' (quotedLine ',' ["x,y".toList, " z ".toList])
        = ["x,y".toList, " z ".toList].map trim ∧
      parseLine ',' "a,\"b,c\",d".toList = ["a".toList, "b,c".toList, "d".toList] :=
  C8_quoted_delimiter_is_literal ',' (by decide) (by decide) ["x,y".toList, " z ".toList]
    (by decide) (by decide)

/-- C9: quote doubling round-trips.  For every delimiter and every string `s`
with no backslash and no newline, tokenizing a double quote, then `s` with
every double quote doubled, then a closing double quote yields exactly one
field, `trim s`.  The line `"he said ""hi"""` yields the single field
`he said "hi"`. -/
theorem C9_doubled_quotes_round_trip (d : Char) (s : Str)
    (hbs : '\\' ∉ s) (_hnl : '\n' ∉ s) :
    parseLine d ('"' :: (doubleQuotes s ++ ['"'])) = [trim s] ∧
      parseLine ',' "\"he said \"\"hi\"\"\"".toList = ["he said \"hi\"".toList] := by
  refine ⟨?_, by decide⟩
  unfold parseLine
  rw [loop_quote_open, loop_doubleQuotes d s _ _ hbs]
  simp

/-- C9 at the string `say "hi"` with delimiter `,`. -/
theorem C9_doubled_quotes_witness :
    parseLine ',' ('"' :: (doubleQuotes "say \"hi\"".toList ++ ['"']))
        = [trim "say \"hi\"".toList] ∧
      parseLine ',' "\"he said \"\"hi\"\"\"".toList = ["he said \"hi\"".toList] :=
  C9_doubled_quotes_round_trip ',' "say \"hi\"".toList (by decide) (by decide)

/-- C10: the escape marker makes the next character literal, whatever the
quote state and whatever the character.  For every delimiter and every string
`s`, tokenizing the line in which every character of `s` is preceded by a
backslash yields exactly one field, `trim s`, and so does that line wrapped in
double quotes.  The line `a\,b,c` yields `[a,b, c]`. -/
theorem C10_escaped_characters_are_literal (d : Char) (s : Str) :
    parseLine d (escapeAll s) = [trim s] ∧
      parseLine d ('"' :: (escapeAll s ++ ['"'])) = [trim s] ∧
      parseLine ',' "a\\,b,c".toList = ["a,b".toList, "c".toList] := by
  refine ⟨?_, ?_, by decide⟩
  · unfold parseLine
    have h := loop_escapeAll d s [] [] [] false
    rw [List.append_nil] at h
    rw [h]
    simp [parseLineLoop]
  · unfold parseLine
    rw [loop_quote_open, loop_escapeAll, loop_quote_close_end]
    simp

/-- C11: every field is trimmed.  For every config, every text and every
state that earlier calls on a fresh parser can produce, each field of each row
returned by `parse`, each header returned by `getHeaders` and each value of
each record returned by `parseToObjects` is empty or begins and ends with a
character other than space, tab, CR and LF.  Quoted content is trimmed too
(the line `" a "`, quotes included, tokenizes to the field `a`), and `trim` is
idempotent. -/
theorem C11_fields_are_trimmed (d : Char) (h s : Bool) (calls : List Call) (text : Str) :
    (∀ row ∈ (((CSVParser.new d h s).run calls).parse text).1,
        ∀ f ∈ row, isTrimmed f = true) ∧
      (∀ f ∈ ((CSVParser.new d h s).run calls).getHeaders, isTrimmed f = true) ∧
      (∀ f ∈ (((CSVParser.new d h s).run calls).parse text).2.getHeaders,
        isTrimmed f = true) ∧
      (∀ record ∈ (((CSVParser.new d h s).run calls).parseToObjects text).1,
        ∀ kv ∈ record, isTrimmed kv.2 = true) ∧
      parseLine ',' "\" a \"".toList = ["a".toList] ∧
      ∀ str : Str, trim (trim str) = trim str := by
  obtain ⟨hdrs, hrun, hh⟩ := run_trimmed d h s calls [] (by simp)
  have hrun2 : (CSVParser.new d h s).run calls = CSVParser.mk d h s hdrs := hrun
  rw [hrun2]
  obtain ⟨hrows, hdrs2, hst, hh2⟩ := parse_trimmed d h s hdrs text hh
  refine ⟨hrows, hh, ?_, ?_, by decide, trim_trim⟩
  · rw [hst]
    exact hh2
  · intro record hrec kv hkv
    cases h with
    | false => simp [CSVParser.parseToObjects] at hrec
    | true =>
      simp only [CSVParser.parseToObjects, Bool.not_true, Bool.false_eq_true, if_false,
        List.mem_map] at hrec
      obtain ⟨row, hrow, hbuild⟩ := hrec
      rw [← hbuild] at hkv
      exact hrows row hrow _ (buildObj_values _ row kv hkv)

/-- C11 at the config `,`, header, skipping and the text `a, b` / `1 ,2`:
the field `1` of the only row is trimmed. -/
theorem C11_fields_are_trimmed_witness : isTrimmed "1".toList = true :=
  (C11_fields_are_trimmed ',' true true [] "a, b\n1 ,2".toList).1
    ["1".toList, "2".toList] (by decide) "1".toList (by decide)

/-- C12: empty-line skipping.  For every delimiter, `hasHeader` value, prior
headers and text, `parse` with `skipEmptyLines` true returns the same rows and
leaves the same headers as `parse` with `skipEmptyLines` false on the text with
every zero-length line deleted; its rows (after the header, if any) are the
trimmed and tokenized non-empty lines, so a zero-length line is never a header
and never a data row.  The text `a,b`, empty line, `c,d` with `skipEmptyLines`
true and `hasHeader` false yields `[[a,b],[c,d]]`. -/
theorem C12_skip_empty_lines (d : Char) (h : Bool) (hdrs : Row) (text : Str) :
    ((CSVParser.mk d h true hdrs).parse text).1
        = ((CSVParser.mk d h false hdrs).parse (dropEmptyLines text)).1 ∧
      ((CSVParser.mk d h true hdrs).parse text).2.getHeaders
        = ((CSVParser.mk d h false hdrs).parse (dropEmptyLines text)).2.getHeaders ∧
      ((CSVParser.mk d false true hdrs).parse text).1
        = ((getLines text).filter (fun l => !l.isEmpty)).map (fun l => parseLine d (trim l)) ∧
      (match ((getLines text).filter (fun l => !l.isEmpty)).map
          (fun l => parseLine d (trim l)) with
        | [] =>
          ((CSVParser.mk d true true hdrs).parse text).1 = [] ∧
            ((CSVParser.mk d true true hdrs).parse text).2.getHeaders = hdrs
        | r :: rs =>
          ((CSVParser.mk d true true hdrs).parse text).1 = rs ∧
            ((CSVParser.mk d true true hdrs).parse text).2.getHeaders = r) ∧
      ((CSVParser.new ',' false true).parse "a,b\n\nc,d\n".toList).1
        = [["a".toList, "b".toList], ["c".toList, "d".toList]] := by
  refine ⟨?_, ?_, ?_, ?_, by decide⟩
  · cases h with
    | false => rw [parse_no_header, parse_no_header, keptRows_dropEmptyLines]
    | true =>
      rw [parse_header, parse_header, keptRows_dropEmptyLines]
      cases keptRows d true (getLines text) <;> rfl
  · cases h with
    | false => rw [parse_no_header, parse_no_header]; rfl
    | true =>
      rw [parse_header, parse_header, keptRows_dropEmptyLines]
      cases keptRows d true (getLines text) <;> rfl
  · rw [parse_no_header, keptRows_skip]
  · rw [parse_header, keptRows_skip]
    cases ((getLines text).filter (fun l => !l.isEmpty)).map (fun l => parseLine d (trim l))
      <;> simp [CSVParser.getHeaders]

/-- C13 (the code at the failing input): with `skipEmptyLines` true, the
CR-free text `a`, empty line, `b` yields the rows `[a]`, `[b]`, but the same
text with every `\n` replaced by `\r\n` yields three rows: the blank line,
arriving as the line `\r`, is not skipped and becomes a row with one empty
field, so the two line terminators are not equivalent there. -/
theorem C13_crlf_blank_line_is_kept :
    '\r' ∉ "a\n\nb".toList ∧
      toCRLF "a\n\nb".toList = "a\r\n\r\nb".toList ∧
      ((CSVParser.new ',' false true).parse "a\n\nb".toList).1 = [["a".toList], ["b".toList]] ∧
      ((CSVParser.new ',' false true).parse (toCRLF "a\n\nb".toList)).1
        = [["a".toList], [[]], ["b".toList]] ∧
      ((CSVParser.new ',' false true).parse (toCRLF "a\n\nb".toList)).1
        ≠ ((CSVParser.new ',' false true).parse "a\n\nb".toList).1 := by
  decide

/-- C14: line splitting is independent of quoting and escaping.  For every
delimiter and text, `parse` with `hasHeader` false and `skipEmptyLines` false
returns as many rows as the text has newlines, plus one if the text is
non-empty and does not end with a newline, and every row has at least one
field.  The text made of a quote, `a`, newline, `b`, quote yields the two rows
`[a]` and `[b]`. -/
theorem C14_rows_follow_newlines (d : Char) (hdrs : Row) (t : Str) :
    ((CSVParser.mk d false false hdrs).parse t).1.length
        = t.count '\n' + (if t ≠ [] ∧ t.getLast? ≠ some '\n' then 1 else 0) ∧
      (∀ row ∈ ((CSVParser.mk d false false hdrs).parse t).1, 1 ≤ row.length) ∧
      ((CSVParser.new ',' false false).parse "\"a\nb\"".toList).1
        = [["a".toList], ["b".toList]] := by
  refine ⟨?_, ?_, by decide⟩
  · rw [parse_no_header, keptRows_no_skip, List.length_map, getLines_length]
  · rw [parse_no_header, keptRows_no_skip]
    intro row hrow
    obtain ⟨l, _, hl⟩ := List.mem_map.1 hrow
    rw [← hl]
    have := parseLineLoop_length_ge d (trim l) [] [] false false
    simpa [parseLine] using this

/-- C14 at the text `x` newline `y` with delimiter `,`: the first row has a
field. -/
theorem C14_rows_follow_newlines_witness : 1 ≤ ["x".toList].length :=
  (C14_rows_follow_newlines ',' [] "x\ny".toList).2.1 ["x".toList] (by decide)

/-- C15: for every delimiter other than the quote and the backslash and every
line without quote and backslash, the tokenizer returns the pieces of the line
split at every delimiter, each trimmed: there are as many fields as delimiters
plus one, a trailing delimiter gives a last empty field, and the line of no
characters gives exactly one field, the empty string. -/
theorem C15_plain_line_splits_at_delimiters (d : Char) (hd1 : d ≠ '"') (hd2 : d ≠ '\\')
    (line : Str) (h1 : '"' ∉ line) (h2 : '\\' ∉ line) :
    parseLine d line = (line.splitOn d).map trim ∧
      (parseLine d line).length = line.count d + 1 ∧
      parseLine d (line ++ [d]) = parseLine d line ++ [[]] ∧
      parseLine d [] = [[]] := by
  have hsplit : parseLine d line = (line.splitOn d).map trim := by
    unfold parseLine
    rw [loop_plain_line d hd1 hd2 line [] [] h1 h2]
    obtain ⟨p, ps, hp⟩ := splitOn_exists d line
    rw [hp]
    simp
  refine ⟨hsplit, ?_, ?_, ?_⟩
  · rw [hsplit, List.length_map, splitOn_length]
  · unfold parseLine
    exact loop_trailing_delimiter d hd1 hd2 line [] [] h1 h2
  · unfold parseLine
    rw [step_nil, trim_nil]
    rfl

/-- C15 at the line ` a ,b,` with delimiter `,`. -/
theorem C15_plain_line_witness :
    parseLine ',' " a ,b,".toList = (" a ,b,".toList.splitOn ',').map trim ∧
      (parseLine ',' " a ,b,".toList).length = " a ,b,".toList.count ',' + 1 ∧
      parseLine ',' (" a ,b,".toList ++ [',']) = parseLine ',' " a ,b,".toList ++ [[]] ∧
      parseLine ',' [] = [[]] :=
  C15_plain_line_splits_at_delimiters ',' (by decide) (by decide) " a ,b,".toList
    (by decide) (by decide)

/-- C16: the engine is total and every index read is in bounds.  For every
parser state and text, `parse` and `parseToObjects` with checked reads return
the results of `parse` and `parseToObjects`, never a failure: the tokenizer on
indices, given one iteration per character, reads `line[i]` and the look-ahead
`line[i + 1]` only inside the line; the record builder reads `headers[i]` and
`row[i]` only below both lengths; and in `trim`, once a first non-whitespace
index is found, a last one is found that is not smaller and lies inside the
string, so that `end - start + 1` does not underflow. -/
theorem C16_engine_is_total (p : CSVParser) (text : Str) :
    p.parseChecked text = some (p.parse text) ∧
      p.parseToObjectsChecked text = some (p.parseToObjects text) ∧
      (∀ (d : Char) (line : Str), parseLineChecked d line = some (parseLine d line)) ∧
      (∀ headers row : Row, buildObjChecked headers row = some (buildObj headers row)) ∧
      ∀ (str : Str) (start : Nat), findFirstNotOf str = some start →
        ∃ stop, findLastNotOf str = some stop ∧ start ≤ stop ∧ stop < str.length :=
  ⟨parseChecked_eq p text, parseToObjectsChecked_eq p text, parseLineChecked_eq,
    buildObjChecked_eq, findLastNotOf_of_first⟩

/-- C16 at the default config and the text `a,b` / `"x""y",2`, and at the
string ` ab ` for `trim`. -/
theorem C16_engine_is_total_witness :
    (CSVParser.new ',' true true).parseToObjectsChecked "a,b\n\"x\"\"y\",2".toList
        = some ((CSVParser.new ',' true true).parseToObjects "a,b\n\"x\"\"y\",2".toList) ∧
      ∃ stop, findLastNotOf " ab ".toList = some stop ∧ 1 ≤ stop ∧ stop < " ab ".toList.length :=
  ⟨(C16_engine_is_total (CSVParser.new ',' true true) "a,b\n\"x\"\"y\",2".toList).2.1,
    (C16_engine_is_total (CSVParser.new ',' true true) "a,b\n\"x\"\"y\",2".toList).2.2.2.2
      " ab ".toList 1 (by decide)⟩

/-- C17: unterminated quotes close at the line end.  For every delimiter
and every line whose scan ends inside quotes with no escape pending, the
tokenizer returns the same fields for the line and for the line with one
closing double quote appended; and for every string `s` without quote and
backslash, a double quote followed by `s` tokenizes to the single field
`trim s`, also when `s` contains the delimiter. -/
theorem C17_unterminated_quote_closes_at_end (d : Char) (line : Str) :
    (endsInQuotes d line = true → endsWithEscape d line = false →
        parseLine d (line ++ ['"']) = parseLine d line) ∧
      ∀ s : Str, '"' ∉ s → '\\' ∉ s → parseLine d ('"' :: s) = [trim s] := by
  refine ⟨fun hq he => loop_append_quote d line [] [] false false hq he, ?_⟩
  intro s h1 h2
  unfold parseLine
  have h := loop_run_in_quotes d s [] [] [] h2 h1
  rw [List.append_nil] at h
  rw [loop_quote_open, h, step_nil]
  simp

/-- C17 at the line `a,"b,c` and at the string `x,y`, with delimiter `,`. -/
theorem C17_unterminated_quote_witness :
    parseLine ',' ("a,\"b,c".toList ++ ['"']) = parseLine ',' "a,\"b,c".toList ∧
      parseLine ',' ('"' :: "x,y".toList) = [trim "x,y".toList] :=
  ⟨(C17_unterminated_quote_closes_at_end ',' "a,\"b,c".toList).1 (by decide) (by decide),
    (C17_unterminated_quote_closes_at_end ',' "a,\"b,c".toList).2 "x,y".toList
      (by decide) (by decide)⟩

/-- C18: a stray escape marker at the line end is dropped.  For every
delimiter and every line whose scan ends with no escape pending, the line with
one backslash appended tokenizes to exactly the fields of the line. -/
theorem C18_trailing_backslash_is_dropped (d : Char) (line : Str)
    (he : endsWithEscape d line = false) :
    parseLine d (line ++ ['\\']) = parseLine d line :=
  loop_append_backslash d line [] [] false false he

/-- C18 at the line `a,"b` with delimiter `,`. -/
theorem C18_trailing_backslash_witness :
    parseLine ',' ("a,\"b".toList ++ ['\\']) = parseLine ',' "a,\"b".toList :=
  C18_trailing_backslash_is_dropped ',' "a,\"b".toList (by decide)

/-- C19: when the delimiter is not space, tab, CR or LF, the whole-line trim
that `parse` does before tokenizing never changes the row: the trimmed line
and the line tokenize to the same fields.  With the tab as delimiter this
fails: the line tab, `a`, tab tokenizes to three fields, its trim to `[a]`. -/
theorem C19_line_trim_keeps_row (d : Char) (hd : isWhitespace d = false) (l : Str) :
    parseLine d (trim l) = parseLine d l ∧
      parseLine '\t' (trim "\ta\t".toList) = ["a".toList] ∧
      parseLine '\t' "\ta\t".toList = [[], "a".toList, []] :=
  ⟨parseLine_trim d hd l, by decide, by decide⟩

/-- C19 at the line ` a , "b "  ` with delimiter `,`. -/
theorem C19_line_trim_witness :
    parseLine ',' (trim " a , \"b \"  ".toList) = parseLine ',' " a , \"b \"  ".toList ∧
      parseLine '\t' (trim "\ta\t".toList) = ["a".toList] ∧
      parseLine '\t' "\ta\t".toList = [[], "a".toList, []] :=
  C19_line_trim_keeps_row ',' (by decide) " a , \"b \"  ".toList

/-- C20: with the double quote or the backslash as delimiter the delimiter
branch of the tokenizer is never taken: every line tokenizes to exactly one
field, so every row of `parse` has exactly one field. -/
theorem C20_quote_or_backslash_delimiter (d : Char) (hd : d = '"' ∨ d = '\\') :
    (∀ line : Str, (parseLine d line).length = 1) ∧
      ∀ (h s : Bool) (hdrs : Row) (text : Str),
        ∀ row ∈ ((CSVParser.mk d h s hdrs).parse text).1, row.length = 1 := by
  have hline : ∀ line : Str, (parseLine d line).length = 1 := fun line => by
    unfold parseLine
    rw [parseLineLoop_length_special d hd]
    rfl
  refine ⟨hline, ?_⟩
  intro h s hdrs text row hrow
  obtain ⟨l, _, hl⟩ := List.mem_map.1 (parse_rows_subset d h s hdrs text row hrow)
  rw [← hl]
  exact hline (trim l)

/-- C20 at the delimiter `"` and the line `a"b"c`. -/
theorem C20_quote_or_backslash_witness : (parseLine '"' "a\"b\"c".toList).length = 1 :=
  (C20_quote_or_backslash_delimiter '"' (Or.inl rfl)).1 "a\"b\"c".toList

end CSV
